import Mathlib

/-!
Shallow embedding of the TransVision subtitle-translation core
(`core/subtitle_parser.py` and `core/translate_subtitle.py`) and proofs of
the specification claims about it.

File contents are modelled as `List Char`; file I/O is abstracted away, so
each parser takes the file's text and each writer returns the text it would
write.  Fallible operations (`raise ValueError`) are modelled with `Except`.
The external translation backend (`translate_lines`) is out of scope for the
spec and is modelled as a function parameter.
-/

/-! ### Python string primitives

`pySpace` models the whitespace class used both by `str.strip()` and by the
regex class `\s` on Python `str` (ASCII whitespace, the C0 separator block,
and the Unicode space characters). -/

def pySpace (c : Char) : Bool :=
  c = ' ' || c = '\t' || c = '\n' || c = '\r' || c = '\x0b' || c = '\x0c' ||
  c = '\x1c' || c = '\x1d' || c = '\x1e' || c = '\x1f' || c = '\x85' ||
  c = '\xa0' || c = ' ' || (' ' ≤ c && c ≤ ' ') ||
  c = ' ' || c = ' ' || c = ' ' || c = ' ' || c = '　'

/-- Python `s.lstrip()` (no argument): drop leading whitespace. -/
def lstripWs (s : List Char) : List Char := s.dropWhile pySpace

/-- Python `s.rstrip()` (no argument): drop trailing whitespace. -/
def rstripWs (s : List Char) : List Char := (s.reverse.dropWhile pySpace).reverse

/-- Python `s.strip()` (no argument): drop whitespace at both ends. -/
def stripWs (s : List Char) : List Char := rstripWs (lstripWs s)

/-- The trailing whitespace run of a string (what `rstrip` removes). -/
def wsTail (x : List Char) : List Char := (x.reverse.takeWhile pySpace).reverse

/-- Python `s.split('\n')`: split on every newline; `"".split('\n') == ['']`,
so the result is always non-empty. -/
def splitNl : List Char → List (List Char)
  | [] => [[]]
  | c :: rest =>
    if c = '\n' then [] :: splitNl rest
    else
      match splitNl rest with
      | [] => [[c]]
      | l :: ls => (c :: l) :: ls

/-- Python `'\n'.join(lines)`. -/
def joinNl : List (List Char) → List Char
  | [] => []
  | [l] => l
  | l :: ls => l ++ '\n' :: joinNl ls

/-- Whether `small` is a prefix of `big` (Python `str.startswith`). -/
def startsWithList : List Char → List Char → Bool
  | _, [] => true
  | [], _ :: _ => false
  | c :: rest, p :: ps => c = p && startsWithList rest ps

/-- Python `str.upper()` restricted to ASCII case mapping. -/
def upperChars (s : List Char) : List Char := s.map Char.toUpper

/-- Python `str.lower()` restricted to ASCII case mapping. -/
def lowerChars (s : List Char) : List Char := s.map Char.toLower

/-- Most-significant-first decimal digits of a positive number; the first
argument is recursion fuel, sufficient whenever `n ≤ fuel`. -/
def natToCharsAux : Nat → Nat → List Char
  | _, 0 => []
  | 0, _ + 1 => []
  | fuel + 1, n + 1 =>
    natToCharsAux fuel ((n + 1) / 10) ++ [Nat.digitChar ((n + 1) % 10)]

/-- Decimal digit characters of a natural number, as Python `f"{n}"` prints
them (minimal representation, and `"0"` for zero). -/
def natToChars (n : Nat) : List Char :=
  if n = 0 then ['0'] else natToCharsAux n n

/-- Python `f"{n:0wd}"`: the decimal digits of `n` left-padded with zeros to
width `w`. -/
def padNum (w : Nat) (n : Nat) : List Char :=
  List.replicate (w - (natToChars n).length) '0' ++ natToChars n

/-- Numeric value of a list of decimal digit characters. -/
def digitsVal (l : List Char) : Nat :=
  l.foldl (fun a c => a * 10 + (c.toNat - 48)) 0

/-- Digit run of a Python integer literal body: digits, in which single
underscores may separate digits (`int("1_0") == 10`). -/
def parseUDigitsAux : List Char → Nat → Option Nat
  | [], acc => some acc
  | c :: rest, acc =>
    if c.isDigit then parseUDigitsAux rest (acc * 10 + (c.toNat - 48))
    else if c = '_' then
      match rest with
      | [] => none
      | d :: rest' =>
        if d.isDigit then parseUDigitsAux rest' (acc * 10 + (d.toNat - 48))
        else none
    else none

def parseUDigits : List Char → Option Nat
  | [] => none
  | c :: rest => if c.isDigit then parseUDigitsAux rest (c.toNat - 48) else none

/-- Python `int(s)` on an already-stripped string: optional sign followed by
digits (ASCII model). -/
def pyInt (s : List Char) : Option Int :=
  match s with
  | [] => none
  | c :: rest =>
    if c = '+' then (parseUDigits rest).map Int.ofNat
    else if c = '-' then (parseUDigits rest).map (fun n => -(n : Int))
    else (parseUDigits (c :: rest)).map Int.ofNat

deriving instance DecidableEq for Except

/-! ### Data model (`Subtitle`, `ASSMetadata`) -/

/-- The `Subtitle` dataclass of `core/subtitle_parser.py`. -/
structure Subtitle where
  index : Int
  start : List Char
  «end» : List Char
  text : List Char
  style : List Char := "Default".toList
  name : List Char := []
  margin_l : Int := 0
  margin_r : Int := 0
  margin_v : Int := 0
  effect : List Char := []
deriving DecidableEq

/-- The `ASSMetadata` dataclass of `core/subtitle_parser.py`. -/
structure ASSMetadata where
  script_info : List (List Char) := []
  styles : List (List Char) := []
  events_header : List Char := []
deriving DecidableEq

/-! ### Chunker (`split_subtitles_into_chunks`)

The Python loop `for i in range(0, len(subtitles), chunk_size)` appends the
slice `subtitles[i:i + chunk_size]` at each step; with a positive step this
is the same as repeatedly taking and dropping `chunk_size` elements.  A zero
step makes `range` raise, modelled as no chunks. -/

def split_subtitles_into_chunks (subtitles : List Subtitle) (chunk_size : Nat) :
    List (List Subtitle) :=
  if h : chunk_size = 0 ∨ subtitles = [] then []
  else
    subtitles.take chunk_size ::
      split_subtitles_into_chunks (subtitles.drop chunk_size) chunk_size
termination_by subtitles.length
decreasing_by
  simp only [not_or] at h
  have h1 : 0 < chunk_size := Nat.pos_of_ne_zero h.1
  have h2 : 0 < subtitles.length := List.length_pos.mpr h.2
  simp only [List.length_drop]
  omega

/-! ### The blank-line splitter

Both the SRT and the VTT parser break a file into blocks with
`re.split(r'\n\s*\n', content)`.  A match of that regex starts at a newline;
the greedy `\s*` then backtracks until the next character is a newline, so a
match covers a whitespace run from its first newline through its last
newline, and a whitespace run separates two blocks exactly when it contains
at least two newlines.  `sbGo` scans the text once, accumulating the current
block in `curr` and the pending whitespace run in `pend`, and splits a
finished run that contains two or more newlines: the part of the run before
its first newline stays with the block on the left, the part after its last
newline starts the block on the right. -/

/-- The part of a whitespace run before its first newline. -/
def sepBefore (pend : List Char) : List Char := pend.takeWhile (fun c => c ≠ '\n')

/-- The part of a whitespace run after its last newline. -/
def sepAfter (pend : List Char) : List Char :=
  (pend.reverse.takeWhile (fun c => c ≠ '\n')).reverse

def sbGo : List Char → List Char → List Char → List (List Char)
  | [], curr, pend =>
    if 2 ≤ pend.count '\n' then [curr ++ sepBefore pend, sepAfter pend]
    else [curr ++ pend]
  | c :: rest, curr, pend =>
    if pySpace c then sbGo rest curr (pend ++ [c])
    else if 2 ≤ pend.count '\n' then
      (curr ++ sepBefore pend) :: sbGo rest (sepAfter pend ++ [c]) []
    else sbGo rest (curr ++ pend ++ [c]) []

/-- `re.split(r'\n\s*\n', s)`. -/
def splitBlankRe (s : List Char) : List (List Char) := sbGo s [] []

/-- Python's `lstrip('﻿')`: remove any leading byte-order marks. -/
def dropBom (s : List Char) : List Char := s.dropWhile (fun c => c = '﻿')

/-! ### SRT codec (`parse_srt`, `write_srt`) -/

/-- Consume the regex group `\d{2}:\d{2}:\d{2},\d{3}` from the front of a
string, returning the matched characters and the remainder. -/
def takeTimestamp : List Char → Option (List Char × List Char)
  | a :: b :: c :: d :: e :: f :: g :: h :: i :: j :: k :: m :: rest =>
    if a.isDigit && b.isDigit && c = ':' && d.isDigit && e.isDigit && f = ':' &&
        g.isDigit && h.isDigit && i = ',' && j.isDigit && k.isDigit && m.isDigit
    then some ([a, b, c, d, e, f, g, h, i, j, k, m], rest)
    else none
  | _ => none

/-- `re.match(r'(\d{2}:\d{2}:\d{2},\d{3})\s*-->\s*(\d{2}:\d{2}:\d{2},\d{3})', l)`:
an anchored prefix match returning the two captured groups (anything may
follow the second group). -/
def matchSrtTimes (l : List Char) : Option (List Char × List Char) :=
  match takeTimestamp l with
  | none => none
  | some (s, r1) =>
    match r1.dropWhile pySpace with
    | '-' :: '-' :: '>' :: r2 =>
      match takeTimestamp (r2.dropWhile pySpace) with
      | some (e, _) => some (s, e)
      | none => none
    | _ => none

/-- One iteration of the `for block in blocks` loop of `parse_srt`: a block
is kept only if it has at least three lines, an integer first line and a
matching time line; the record's text joins all remaining lines. -/
def srtBlockRecord (block : List Char) : Option Subtitle :=
  match splitNl (stripWs block) with
  | l0 :: l1 :: l2 :: rest =>
    match pyInt (stripWs l0) with
    | none => none
    | some idx =>
      match matchSrtTimes (stripWs l1) with
      | none => none
      | some (s, e) =>
        some { index := idx, start := s, «end» := e, text := joinNl (l2 :: rest) }
  | _ => none

def parse_srt (content : List Char) : List Subtitle :=
  ((splitBlankRe (stripWs (dropBom content))).filterMap srtBlockRecord)

/-- The `f"{sub.start} --> {sub.end}"` time line written by `write_srt`. -/
def srtTimeLine (sub : Subtitle) : List Char :=
  sub.start ++ ' ' :: '-' :: '-' :: '>' :: ' ' :: sub.«end»

/-- One SRT block as written by `write_srt`, terminating blank line omitted. -/
def srtBlockChars (i : Nat) (sub : Subtitle) : List Char :=
  natToChars i ++ '\n' :: srtTimeLine sub ++ '\n' :: sub.text

/-- The `for i, sub in enumerate(subtitles, 1)` loop of `write_srt`. -/
def writeSrtGo : Nat → List Subtitle → List Char
  | _, [] => []
  | i, sub :: rest => srtBlockChars i sub ++ '\n' :: '\n' :: writeSrtGo (i + 1) rest

def write_srt (subtitles : List Subtitle) : List Char := writeSrtGo 1 subtitles

/-! ### Generic splitting helpers for the other codecs -/

/-- Python `s.split(sep)` for a single-character separator. -/
def splitOnChar (sep : Char) : List Char → List (List Char)
  | [] => [[]]
  | c :: rest =>
    if c = sep then [] :: splitOnChar sep rest
    else
      match splitOnChar sep rest with
      | [] => [[c]]
      | l :: ls => (c :: l) :: ls

/-- Python `s.split(',', maxsplit)` for a non-negative `maxsplit`. -/
def splitCommaCount : Nat → List Char → List (List Char)
  | 0, l => [l]
  | _ + 1, [] => [[]]
  | n + 1, c :: rest =>
    if c = ',' then [] :: splitCommaCount n rest
    else
      match splitCommaCount (n + 1) rest with
      | [] => [[c]]
      | p :: ps => (c :: p) :: ps

/-- Python `s.split(',', maxsplit)` with Python's signed `maxsplit` (any
negative value means unlimited splitting). -/
def splitCommaMax (maxsplit : Int) (l : List Char) : List (List Char) :=
  if maxsplit < 0 then splitOnChar ',' l else splitCommaCount maxsplit.toNat l

/-- Python `f"{i}"` for an `int`. -/
def intToChars (i : Int) : List Char :=
  if i < 0 then '-' :: natToChars i.natAbs else natToChars i.toNat

/-! ### ASS and VTT time-stamp conversion -/

def sDefaultSrtTime : List Char := "00:00:00,000".toList

def sDefaultAssTime : List Char := "0:00:00.00".toList

/-- `re.match(r'(\d+):(\d{2}):(\d{2})\.(\d{2})', l)`: the four captured
groups of an anchored prefix match (trailing characters allowed). -/
def matchAssTime (l : List Char) :
    Option (List Char × List Char × List Char × List Char) :=
  let h := l.takeWhile Char.isDigit
  if h.isEmpty then none
  else
    match l.drop h.length with
    | ':' :: m1 :: m2 :: ':' :: s1 :: s2 :: '.' :: c1 :: c2 :: _ =>
      if m1.isDigit && m2.isDigit && s1.isDigit && s2.isDigit &&
          c1.isDigit && c2.isDigit
      then some (h, [m1, m2], [s1, s2], [c1, c2])
      else none
    | _ => none

/-- `_ass_time_to_srt`: `H:MM:SS.cc` to `HH:MM:SS,mmm` with `ms = cc * 10`;
any non-matching input produces `"00:00:00,000"`.  The matched groups are
all digits, so Python's `int` on them is their digit value. -/
def _ass_time_to_srt (ass_time : List Char) : List Char :=
  match matchAssTime ass_time with
  | some (h, m, s, cs) =>
    padNum 2 (digitsVal h) ++ ':' :: m ++ ':' :: s ++ ',' :: padNum 3 (digitsVal cs * 10)
  | none => sDefaultSrtTime

/-- `re.match(r'(\d{2}):(\d{2}):(\d{2}),(\d{3})', l)`: the four captured
groups of an anchored prefix match (trailing characters allowed). -/
def matchSrtTime (l : List Char) :
    Option (List Char × List Char × List Char × List Char) :=
  match l with
  | h1 :: h2 :: ':' :: m1 :: m2 :: ':' :: s1 :: s2 :: ',' :: x1 :: x2 :: x3 :: _ =>
    if h1.isDigit && h2.isDigit && m1.isDigit && m2.isDigit && s1.isDigit &&
        s2.isDigit && x1.isDigit && x2.isDigit && x3.isDigit
    then some ([h1, h2], [m1, m2], [s1, s2], [x1, x2, x3])
    else none
  | _ => none

/-- `_srt_time_to_ass`: `HH:MM:SS,mmm` to `H:MM:SS.cc` with `cs = ms // 10`;
any non-matching input produces `"0:00:00.00"`. -/
def _srt_time_to_ass (srt_time : List Char) : List Char :=
  match matchSrtTime srt_time with
  | some (h, m, s, ms) =>
    natToChars (digitsVal h) ++ ':' :: m ++ ':' :: s ++ '.' :: padNum 2 (digitsVal ms / 10)
  | none => sDefaultAssTime

/-- `_vtt_time_to_srt`: `(HH:)MM:SS.mmm` to `HH:MM:SS,mmm`.  The tuple
unpacking in the source raises for any other number of colon-separated
fields; such inputs cannot reach this function from `parse_vtt` (its time
stamps always have one or two colons) and are modelled by the default
time. -/
def _vtt_time_to_srt (vtt_time : List Char) : List Char :=
  match splitOnChar ':' vtt_time with
  | [m, s_ms] =>
    padNum 2 0 ++ ':' :: m ++ ':' :: s_ms.map (fun c => if c = '.' then ',' else c)
  | [h, m, s_ms] =>
    padNum 2 (digitsVal h) ++ ':' :: m ++ ':' :: s_ms.map (fun c => if c = '.' then ',' else c)
  | _ => sDefaultSrtTime

/-- `_srt_time_to_vtt`: replace the comma with a period. -/
def _srt_time_to_vtt (srt_time : List Char) : List Char :=
  srt_time.map (fun c => if c = ',' then '.' else c)

/-! ### VTT codec (`parse_vtt`, `write_vtt`) -/

def sWEBVTT : List Char := "WEBVTT".toList

def sSTYLE : List Char := "STYLE".toList

def sREGION : List Char := "REGION".toList

def sNOTE : List Char := "NOTE".toList

def sVttErr : List Char := "无效的 VTT 文件: 缺少 WEBVTT 头".toList

/-- Python `'-->' in line`. -/
def hasArrow : List Char → Bool
  | '-' :: '-' :: '>' :: _ => true
  | _ :: rest => hasArrow rest
  | [] => false

/-- Python `line.split('-->')`. -/
def splitArrow : List Char → List (List Char)
  | '-' :: '-' :: '>' :: rest => [] :: splitArrow rest
  | c :: rest =>
    match splitArrow rest with
    | [] => [[c]]
    | p :: ps => (c :: p) :: ps
  | [] => [[]]

/-- Consume `\d{2}:\d{2}\.\d{3}` from the front of a string. -/
def vttCore : List Char → Option (List Char)
  | a :: b :: ':' :: c :: d :: '.' :: e :: f :: g :: rest =>
    if a.isDigit && b.isDigit && c.isDigit && d.isDigit && e.isDigit &&
        f.isDigit && g.isDigit
    then some rest
    else none
  | _ => none

/-- Optional-group alternative `\d{2}:` before the core stamp. -/
def vttStamp2 : List Char → Option (List Char)
  | a :: b :: ':' :: rest => if a.isDigit && b.isDigit then vttCore rest else none
  | _ => none

/-- Optional-group alternative `\d{1}:` before the core stamp. -/
def vttStamp1 : List Char → Option (List Char)
  | a :: ':' :: rest => if a.isDigit then vttCore rest else none
  | _ => none

/-- Consume `(\d{1,2}:)?\d{2}:\d{2}\.\d{3}`: the greedy optional group tries
two digits, then one digit, then nothing. -/
def vttStamp (l : List Char) : Option (List Char) :=
  match vttStamp2 l with
  | some r => some r
  | none =>
    match vttStamp1 l with
    | some r => some r
    | none => vttCore l

/-- `re.match(r'(\d{1,2}:)?\d{2}:\d{2}\.\d{3}\s*-->\s*(\d{1,2}:)?\d{2}:\d{2}\.\d{3}', l)`
as a Boolean (the source only tests the match for truthiness). -/
def matchVttTimes (l : List Char) : Bool :=
  match vttStamp l with
  | none => false
  | some r1 =>
    match r1.dropWhile pySpace with
    | '-' :: '-' :: '>' :: r2 =>
      match vttStamp (r2.dropWhile pySpace) with
      | some _ => true
      | none => false
    | _ => false

/-- Python `part.strip().split()[0]`: the first whitespace-delimited token.
The index can only raise for an all-whitespace part, which cannot happen
after the time-line regex has matched; that case is modelled as `[]`. -/
def firstToken (s : List Char) : List Char :=
  (stripWs s).takeWhile (fun c => !pySpace c)

/-- Drop through the first `>` of a string, if any. -/
def findGt : List Char → Option (List Char)
  | [] => none
  | c :: r => if c = '>' then some r else findGt r

/-- `re.sub(r'<[^>]+>', '', text)`: at each `<`, the class `[^>]+` needs at
least one character and stops at the first `>`; without a closing `>` (or
with an immediately following `>`) there is no match and the `<` is kept.
The fuel argument only drives the recursion: every step consumes at least
one character, so `removeAngleTags` always supplies enough. -/
def removeAngleTagsAux : Nat → List Char → List Char
  | _, [] => []
  | 0, l => l
  | fuel + 1, c :: rest =>
    if c = '<' ∧ rest.head? ≠ some '>' then
      match findGt rest with
      | some r => removeAngleTagsAux fuel r
      | none => c :: removeAngleTagsAux fuel rest
    else c :: removeAngleTagsAux fuel rest

def removeAngleTags (l : List Char) : List Char := removeAngleTagsAux l.length l

/-- The first line containing `-->` together with the lines after it
(the `for ... else` search of `parse_vtt`). -/
def vttFindTimeLine : List (List Char) → Option (List Char × List (List Char))
  | [] => none
  | l :: rest => if hasArrow l then some (l, rest) else vttFindTimeLine rest

/-- One iteration of the cue-block loop of `parse_vtt`, producing the
start time, end time (already converted to SRT form) and the tag-stripped
text of an accepted block. -/
def vttBlockRecord (block : List Char) : Option (List Char × List Char × List Char) :=
  match splitNl (stripWs block) with
  | [] => none
  | l0 :: _ =>
    let first_line := upperChars (stripWs l0)
    if startsWithList first_line sSTYLE || startsWithList first_line sREGION ||
        startsWithList first_line sNOTE then none
    else
      match vttFindTimeLine (splitNl (stripWs block)) with
      | none => none
      | some (timeLine, restLines) =>
        if matchVttTimes (stripWs timeLine) then
          let parts := splitArrow timeLine
          some (_vtt_time_to_srt (firstToken (parts.getD 0 [])),
                _vtt_time_to_srt (firstToken (parts.getD 1 [])),
                removeAngleTags (joinNl restLines))
        else none

/-- The cue-block loop of `parse_vtt` with its running `index` counter. -/
def parseVttBlocks : List (List Char) → Nat → List Subtitle
  | [], _ => []
  | b :: rest, idx =>
    match vttBlockRecord b with
    | none => parseVttBlocks rest idx
    | some (s, e, t) =>
      { index := ((idx + 1 : Nat) : Int), start := s, «end» := e, text := t } ::
        parseVttBlocks rest (idx + 1)

def parse_vtt (content : List Char) : Except (List Char) (List Subtitle) :=
  let c := dropBom content
  if startsWithList (stripWs c) sWEBVTT then
    Except.ok (parseVttBlocks ((splitBlankRe (stripWs c)).drop 1) 0)
  else Except.error sVttErr

def write_vtt (subtitles : List Subtitle) : List Char :=
  sWEBVTT ++ '\n' :: '\n' ::
    subtitles.flatMap (fun sub =>
      intToChars sub.index ++ '\n' ::
        (_srt_time_to_vtt sub.start ++ ' ' :: '-' :: '-' :: '>' :: ' ' ::
          _srt_time_to_vtt sub.«end») ++ '\n' :: sub.text ++ '\n' :: ['\n'])

/-! ### ASS codec (`parse_ass`, `write_ass`) -/

def sScriptInfo : List Char := "script info".toList

def sV4Styles : List Char := "v4 styles".toList

def sV4pStyles : List Char := "v4+ styles".toList

def sEvents : List Char := "events".toList

def sFormatColon : List Char := "Format:".toList

def sDialogueColon : List Char := "Dialogue:".toList

def sStart : List Char := "start".toList

def sEnd : List Char := "end".toList

def sText : List Char := "text".toList

def sStyleKey : List Char := "style".toList

def sNameKey : List Char := "name".toList

def sMarginL : List Char := "marginl".toList

def sMarginR : List Char := "marginr".toList

def sMarginV : List Char := "marginv".toList

def sEffectKey : List Char := "effect".toList

def sDefaultStyle : List Char := "Default".toList

/-- Python `dict(zip(keys, vals)).get(k)`: `zip` truncates to the shorter
list, and with duplicate keys the later pair wins. -/
def dictGet (keys vals : List (List Char)) (k : List Char) : Option (List Char) :=
  match (keys.zip vals).reverse.find? (fun p => p.1 == k) with
  | some p => some p.2
  | none => none

/-- `dict(zip(keys, vals)).get(k, d)`. -/
def dictGetD (keys vals : List (List Char)) (k d : List Char) : List Char :=
  (dictGet keys vals k).getD d

/-- Python `s.replace(ab, r)` for a two-character needle `ab` and
one-character replacement, scanning left to right without overlap. -/
def replaceSeq2 (a b r : Char) : List Char → List Char
  | [] => []
  | [c] => [c]
  | c :: d :: rest =>
    if c = a ∧ d = b then r :: replaceSeq2 a b r rest
    else c :: replaceSeq2 a b r (d :: rest)

/-- Drop through the first closing brace of a string, if any. -/
def findCloseBrace : List Char → Option (List Char)
  | [] => none
  | c :: r => if c = '\x7d' then some r else findCloseBrace r

/-- `re.sub` of an ASS override tag (opening brace, any characters other
than a closing brace, closing brace) with the empty string: each opening
brace with a later closing brace is removed together with the characters
between them; an opening brace with no closing brace is kept.  The fuel
argument only drives the recursion: every step consumes at least one
character, so `stripBraces` always supplies enough. -/
def stripBracesAux : Nat → List Char → List Char
  | _, [] => []
  | 0, l => l
  | fuel + 1, c :: rest =>
    if c = '\x7b' then
      match findCloseBrace rest with
      | some r => stripBracesAux fuel r
      | none => c :: stripBracesAux fuel rest
    else c :: stripBracesAux fuel rest

def stripBraces (l : List Char) : List Char := stripBracesAux l.length l

/-- `int(sub_dict.get(key, 0) or 0)` for the ASS margin fields: a missing
key or an empty string gives 0; `int` raising on a non-numeric string is
modelled as 0 (such dialogue lines crash the source parser). -/
def assIntField (v : Option (List Char)) : Int :=
  match v with
  | none => 0
  | some s => if s = [] then 0 else (pyInt s).getD 0

/-- The mutable state of the `parse_ass` line loop. -/
structure AssParseState where
  metadata : ASSMetadata
  subtitles : List Subtitle
  current_section : Option (List Char)
  dialogue_format : List (List Char)
deriving DecidableEq

def assInitState : AssParseState :=
  { metadata := {}, subtitles := [], current_section := none, dialogue_format := [] }

/-- The dialogue record appended for one `Dialogue:` line, given the current
field order `keys` and the comma-split field values `parts`. -/
def assDialogueRecord (keys parts : List (List Char)) (count : Nat) : Subtitle :=
  { index := ((count + 1 : Nat) : Int),
    start := _ass_time_to_srt (dictGetD keys parts sStart sDefaultAssTime),
    «end» := _ass_time_to_srt (dictGetD keys parts sEnd sDefaultAssTime),
    text := stripBraces (replaceSeq2 '\\' 'n' '\n'
      (replaceSeq2 '\\' 'N' '\n' (dictGetD keys parts sText []))),
    style := dictGetD keys parts sStyleKey sDefaultStyle,
    name := dictGetD keys parts sNameKey [],
    margin_l := assIntField (dictGet keys parts sMarginL),
    margin_r := assIntField (dictGet keys parts sMarginR),
    margin_v := assIntField (dictGet keys parts sMarginV),
    effect := dictGetD keys parts sEffectKey [] }

/-- One iteration of the `for line in content.split('\n')` loop of
`parse_ass`. -/
def parse_ass_line (st : AssParseState) (rawLine : List Char) : AssParseState :=
  let line := stripWs rawLine
  if line.head? = some '[' ∧ line.getLast? = some ']' then
    let sec := lowerChars (line.drop 1).dropLast
    let md := st.metadata
    let md' :=
      if sec = sScriptInfo then
        { md with script_info := md.script_info ++ [line] }
      else if sec = sV4Styles ∨ sec = sV4pStyles then
        { md with styles := md.styles ++ [line] }
      else md
    { st with current_section := some sec, metadata := md' }
  else
    match st.current_section with
    | none => st
    | some sec =>
      if sec = sScriptInfo then
        { st with metadata :=
            { st.metadata with script_info := st.metadata.script_info ++ [line] } }
      else if sec = sV4Styles ∨ sec = sV4pStyles then
        { st with metadata :=
            { st.metadata with styles := st.metadata.styles ++ [line] } }
      else if sec = sEvents then
        if startsWithList line sFormatColon then
          { st with
            metadata := { st.metadata with events_header := line },
            dialogue_format :=
              (splitOnChar ',' (line.drop 7)).map (fun p => lowerChars (stripWs p)) }
        else if startsWithList line sDialogueColon then
          let parts := splitCommaMax ((st.dialogue_format.length : Int) - 1) (line.drop 9)
          if st.dialogue_format.length ≤ parts.length then
            { st with subtitles := st.subtitles ++
                [assDialogueRecord st.dialogue_format parts st.subtitles.length] }
          else st
        else st
      else st

def parse_ass (content : List Char) : List Subtitle × ASSMetadata :=
  let st := (splitNl (dropBom content)).foldl parse_ass_line assInitState
  (st.subtitles, st.metadata)

def _default_ass_metadata : ASSMetadata :=
  { script_info :=
      [ "[Script Info]".toList,
        "ScriptType: v4.00+".toList,
        "PlayResX: 1920".toList,
        "PlayResY: 1080".toList,
        "WrapStyle: 0".toList ],
    styles :=
      [ "[V4+ Styles]".toList,
        "Format: Name, Fontname, Fontsize, PrimaryColour, SecondaryColour, OutlineColour, BackColour, Bold, Italic, Underline, StrikeOut, ScaleX, ScaleY, Spacing, Angle, BorderStyle, Outline, Shadow, Alignment, MarginL, MarginR, MarginV, Encoding".toList,
        "Style: Default,Arial,48,&H00FFFFFF,&H000000FF,&H00000000,&H00000000,0,0,0,0,100,100,0,0,1,2,2,2,10,10,10,1".toList ],
    events_header :=
      "Format: Layer, Start, End, Style, Name, MarginL, MarginR, MarginV, Effect, Text".toList }

def sEventsSection : List Char := "[Events]".toList

def sDialogueZero : List Char := "Dialogue: 0,".toList

def write_ass (subtitles : List Subtitle) (metadata : Option ASSMetadata) : List Char :=
  let md := metadata.getD _default_ass_metadata
  (md.script_info.flatMap (fun l => l ++ ['\n'])) ++ '\n' ::
    (md.styles.flatMap (fun l => l ++ ['\n'])) ++ '\n' ::
    sEventsSection ++ '\n' :: md.events_header ++ '\n' ::
    subtitles.flatMap (fun sub =>
      sDialogueZero ++ _srt_time_to_ass sub.start ++ ',' :: _srt_time_to_ass sub.«end» ++
        ',' :: sub.style ++ ',' :: sub.name ++ ',' :: intToChars sub.margin_l ++
        ',' :: intToChars sub.margin_r ++ ',' :: intToChars sub.margin_v ++
        ',' :: sub.effect ++ ',' ::
        (sub.text.flatMap (fun c => if c = '\n' then ['\\', 'N'] else [c])) ++ ['\n'])

/-! ### Format dispatcher (`detect_subtitle_format`, `parse_subtitle`,
`write_subtitle`) -/

def sSrt : List Char := "srt".toList

def sAss : List Char := "ass".toList

def sVtt : List Char := "vtt".toList

def sUnknown : List Char := "unknown".toList

def sDotSrt : List Char := ".srt".toList

def sDotAss : List Char := ".ass".toList

def sDotSsa : List Char := ".ssa".toList

def sDotVtt : List Char := ".vtt".toList

def sUnsupportedMsg : List Char := "不支持的字幕格式: ".toList

/-- `pathlib.Path(p).suffix`: the extension of the final path component,
empty for names that have no dot, start with their only dot, or end with
their last dot. -/
def pathSuffix (p : List Char) : List Char :=
  let q := (p.reverse.dropWhile (fun c => c = '/')).reverse
  let name := (splitOnChar '/' q).getLastD []
  if name.contains '.' then
    let ext := '.' :: (name.reverse.takeWhile (fun c => c ≠ '.')).reverse
    let i := name.length - ext.length
    if 0 < i ∧ i < name.length - 1 then ext else []
  else []

def detect_subtitle_format (file_path : List Char) : List Char :=
  let ext := lowerChars (pathSuffix file_path)
  if ext = sDotSrt then sSrt
  else if ext = sDotAss ∨ ext = sDotSsa then sAss
  else if ext = sDotVtt then sVtt
  else sUnknown

/-- `parse_subtitle`: dispatch on the detected format; an unknown format
raises `ValueError(f"不支持的字幕格式: {file_path}")`. -/
def parse_subtitle (file_path content : List Char) :
    Except (List Char) (List Subtitle × Option ASSMetadata) :=
  let fmt := detect_subtitle_format file_path
  if fmt = sSrt then Except.ok (parse_srt content, none)
  else if fmt = sAss then Except.ok ((parse_ass content).1, some (parse_ass content).2)
  else if fmt = sVtt then
    match parse_vtt content with
    | Except.ok subs => Except.ok (subs, none)
    | Except.error e => Except.error e
  else Except.error (sUnsupportedMsg ++ file_path)

/-- `write_subtitle`: dispatch on the detected format of the output path;
an unknown format falls back to the SRT writer. -/
def write_subtitle (subtitles : List Subtitle) (output_path : List Char)
    (metadata : Option ASSMetadata) : List Char :=
  let fmt := detect_subtitle_format output_path
  if fmt = sSrt then write_srt subtitles
  else if fmt = sAss then write_ass subtitles metadata
  else if fmt = sVtt then write_vtt subtitles
  else write_srt subtitles

/-! ### Translation pipeline (`translate_chunk`, `translate_subtitles`)

The external backend `translate_lines` is a parameter; its
`things_to_note_prompt` argument is always `None` in this code path and is
omitted.  The remaining arguments are passed positionally: the joined line
payload, the previous context, the after context, the theme prompt
(`summary_prompt`) and the chunk index. -/

/-- The type of the external `translate_lines` backend. -/
def Backend : Type :=
  List Char → Option (List (List Char)) → Option (List (List Char)) →
    Option (List Char) → Nat → List Char

/-- `translate_chunk`: build the payload and neighbour context, call the
backend once, and split its result on newlines.  `prev_chunk[-3:]` is the
last three elements and `next_chunk[:2]` the first two. -/
def translate_chunk (translate_lines : Backend) (chunk : List Subtitle)
    (chunks : List (List Subtitle)) (chunk_index : Nat)
    (theme_prompt : Option (List Char)) : Nat × List (List Char) :=
  let lines := joinNl (chunk.map (fun sub =>
    sub.text.map (fun c => if c = '\n' then ' ' else c)))
  let previous_content : Option (List (List Char)) :=
    if 0 < chunk_index then
      let prev_chunk := chunks.getD (chunk_index - 1) []
      some ((prev_chunk.drop (prev_chunk.length - 3)).map Subtitle.text)
    else none
  let after_content : Option (List (List Char)) :=
    if chunk_index < chunks.length - 1 then
      some (((chunks.getD (chunk_index + 1) []).take 2).map Subtitle.text)
    else none
  let translation := translate_lines lines previous_content after_content
    theme_prompt chunk_index
  (chunk_index, splitNl translation)

/-- The per-record text selection of the reassembly loop: the `i`-th
translated line, stripped, when the backend returned more than `i` lines,
and the original text otherwise. -/
def pickText (translated_lines : List (List Char)) (i : Nat) (orig : List Char) :
    List Char :=
  match translated_lines.get? i with
  | some t => stripWs t
  | none => orig

/-- The inner `for i, sub in enumerate(chunk)` loop of the reassembly. -/
def reassembleGo : Nat → List Subtitle → List (List Char) → List Subtitle
  | _, [], _ => []
  | i, sub :: rest, tls =>
    { index := sub.index, start := sub.start, «end» := sub.«end»,
      text := pickText tls i sub.text,
      style := sub.style, name := sub.name,
      margin_l := sub.margin_l, margin_r := sub.margin_r,
      margin_v := sub.margin_v, effect := sub.effect } ::
      reassembleGo (i + 1) rest tls

def reassembleChunk (chunk : List Subtitle) (translated_lines : List (List Char)) :
    List Subtitle :=
  reassembleGo 0 chunk translated_lines

/-- Stable insertion of one completed result into a key-sorted result list. -/
def insertResult (x : Nat × List (List Char)) :
    List (Nat × List (List Char)) → List (Nat × List (List Char))
  | [] => [x]
  | y :: ys => if y.1 ≤ x.1 then y :: insertResult x ys else x :: y :: ys

/-- `results.sort(key=lambda x: x[0])`.  Python's sort is a comparison sort
on the chunk index; it is modelled by insertion sort, which agrees with it
on every list whose keys are distinct (the only lists the pipeline
produces). -/
def sortResults (l : List (Nat × List (List Char))) : List (Nat × List (List Char)) :=
  l.foldr insertResult []

/-- The reassembly phase of `translate_subtitles` (lines 144-173): sort the
completed results by chunk position, then rebuild the caption list chunk by
chunk. -/
def reassembleAll (chunks : List (List Subtitle))
    (results : List (Nat × List (List Char))) : List Subtitle :=
  (sortResults results).flatMap (fun r => reassembleChunk (chunks.getD r.1 []) r.2)

/-- `translate_subtitles`: chunk, translate every chunk, and reassemble.
The thread pool dispatches one `translate_chunk` per chunk index and
`as_completed` yields the results in an arbitrary completion order, which
the source then sorts by chunk position; the model collects them in
submission order and applies the same sort (`reassembleAll`), whose
invariance under completion order is proved separately. -/
def translate_subtitles (translate_lines : Backend) (subtitles : List Subtitle)
    (theme_prompt : Option (List Char)) (chunk_size : Nat) : List Subtitle :=
  let chunks := split_subtitles_into_chunks subtitles chunk_size
  let results := (List.range chunks.length).map
    (fun i => translate_chunk translate_lines (chunks.getD i []) chunks i theme_prompt)
  reassembleAll chunks results

/-! ### Invariants of SRT parse output (for the round-trip claim)

`WFsub` captures the shape of every record `parse_srt` produces: the two
time stamps are exact regex groups, no text line is whitespace-only, and
the text carries no trailing whitespace.  `writeBody` is `write_srt`'s
output without its trailing blank line, and `srtBlocks` the list of the
individual blocks it writes. -/

def WFsub (r : Subtitle) : Prop :=
  takeTimestamp r.start = some (r.start, []) ∧
  takeTimestamp r.«end» = some (r.«end», []) ∧
  (∀ l ∈ splitNl r.text, l.all pySpace = false) ∧
  rstripWs r.text = r.text

def writeBody : Nat → List Subtitle → List Char
  | _, [] => []
  | i, [sub] => srtBlockChars i sub
  | i, sub :: rest => srtBlockChars i sub ++ '\n' :: '\n' :: writeBody (i + 1) rest

def srtBlocks : Nat → List Subtitle → List (List Char)
  | _, [] => []
  | i, sub :: rest => srtBlockChars i sub :: srtBlocks (i + 1) rest

/-! ### Well-formed time stamps (for the conversion claims)

`mkAssTime h m s cc` is the canonical ASS time stamp `H:MM:SS.cc` exactly as
`write_ass` prints one (hours unpadded), and `mkSrtTime h m s ms` the
canonical SRT stamp `HH:MM:SS,mmm` as `parse_srt` captures one. -/

def mkAssTime (h m s cc : Nat) : List Char :=
  natToChars h ++ ':' :: padNum 2 m ++ ':' :: padNum 2 s ++ '.' :: padNum 2 cc

def mkSrtTime (h m s ms : Nat) : List Char :=
  padNum 2 h ++ ':' :: padNum 2 m ++ ':' :: padNum 2 s ++ ',' :: padNum 3 ms

/-! ### Concrete inputs used by the witnesses -/

/-- A record with the given index and text. -/
def wSub (k : Nat) (t : List Char) : Subtitle :=
  { index := (k : Int), start := sDefaultSrtTime, «end» := sDefaultSrtTime, text := t }

/-- A backend that echoes its payload. -/
def backendEcho : Backend := fun lines _ _ _ _ => lines

/-- The record parsed from the witness VTT cue. -/
def wVttRec : Subtitle :=
  { index := 1, start := "00:00:01,000".toList, «end» := "00:00:02,000".toList,
    text := "hi".toList }

/-- Parser state used by the dialogue-before-format witness. -/
def wAssStateC10 : AssParseState :=
  { metadata := {}, subtitles := [], current_section := some sEvents,
    dialogue_format := [] }

/-- Three chunks used by the context-window witness. -/
def wChunksC4 : List (List Subtitle) :=
  [[wSub 1 ("a".toList), wSub 2 ("b".toList), wSub 3 ("c".toList), wSub 4 ("d".toList)],
   [wSub 5 ("e".toList)],
   [wSub 6 ("f".toList), wSub 7 ("g".toList), wSub 8 ("h".toList)]]

-- DEFS-END

-- THEOREMS-BEGIN

theorem chunks_nil (n : Nat) : split_subtitles_into_chunks [] n = [] := by
  rw [split_subtitles_into_chunks]
  simp

theorem chunks_cons (l : List Subtitle) (n : Nat) (hn : n ≠ 0) (hl : l ≠ []) :
    split_subtitles_into_chunks l n =
      l.take n :: split_subtitles_into_chunks (l.drop n) n := by
  rw [split_subtitles_into_chunks]
  simp [hn, hl]

/-- Concatenating the chunks reconstructs the original list. -/
theorem chunks_join (l : List Subtitle) (n : Nat) (hn : 0 < n) :
    (split_subtitles_into_chunks l n).flatten = l := by
  revert hn
  induction l, n using split_subtitles_into_chunks.induct with
  | case1 l n h =>
    intro hn
    rcases h with h | h
    · omega
    · simp [h, chunks_nil]
  | case2 l n h ih =>
    intro hn
    simp only [not_or] at h
    rw [chunks_cons l n h.1 h.2]
    simp [ih hn, List.take_append_drop]

/-- The number of chunks is `⌈length / n⌉`. -/
theorem chunks_count (l : List Subtitle) (n : Nat) (hn : 0 < n) :
    (split_subtitles_into_chunks l n).length = (l.length + n - 1) / n := by
  revert hn
  induction l, n using split_subtitles_into_chunks.induct with
  | case1 l n h =>
    intro hn
    rcases h with h | h
    · omega
    · subst h
      rw [chunks_nil]
      simp only [List.length_nil, Nat.zero_add]
      exact (Nat.div_eq_of_lt (by omega)).symm
  | case2 l n h ih =>
    intro hn
    replace ih := ih hn
    simp only [not_or] at h
    rw [chunks_cons l n h.1 h.2]
    have hlen : 0 < l.length := List.length_pos.mpr h.2
    simp only [List.length_cons, List.length_drop] at ih ⊢
    rw [ih]
    rcases le_or_lt l.length n with hle | hlt
    · have : l.length - n = 0 := by omega
      rw [this]
      rw [Nat.div_eq_of_lt (by omega)]
      have : l.length + n - 1 = (l.length - 1) + n := by omega
      rw [this, Nat.add_div_right _ hn, Nat.div_eq_of_lt (by omega)]
    · have e1 : l.length - n + n - 1 = (l.length - n - 1) + n := by omega
      have e2 : l.length + n - 1 = (l.length - 1) + n := by omega
      rw [e1, e2, Nat.add_div_right _ hn, Nat.add_div_right _ hn]
      have e3 : l.length - 1 = (l.length - n - 1) + n := by omega
      rw [e3, Nat.add_div_right _ hn]

/-- Every chunk except possibly the last has length exactly `n`. -/
theorem chunks_full (l : List Subtitle) (n : Nat) (hn : 0 < n) (i : Nat)
    (hi : i + 1 < (split_subtitles_into_chunks l n).length) :
    ((split_subtitles_into_chunks l n).getD i []).length = n := by
  revert hn i
  induction l, n using split_subtitles_into_chunks.induct with
  | case1 l n h =>
    intro hn i hi
    rcases h with h | h
    · omega
    · subst h
      rw [chunks_nil] at hi
      simp at hi
  | case2 l n h ih =>
    intro hn i hi
    replace ih := ih hn
    simp only [not_or] at h
    rw [chunks_cons l n h.1 h.2] at hi ⊢
    match i with
    | 0 =>
      simp only [List.getD_cons_zero]
      simp only [List.length_cons] at hi
      have hrest : split_subtitles_into_chunks (l.drop n) n ≠ [] := by
        intro hc
        rw [hc] at hi
        simp at hi
      have hdrop : l.drop n ≠ [] := by
        intro hc
        rw [hc, chunks_nil] at hrest
        exact hrest rfl
      have : n < l.length := by
        by_contra hc
        push_neg at hc
        exact hdrop (List.drop_eq_nil_of_le hc)
      simp [List.length_take]
      omega
    | i + 1 =>
      simp only [List.length_cons, Nat.add_lt_add_iff_right] at hi
      simp only [List.getD_cons_succ]
      exact ih i hi

/-- The last chunk is non-empty and no longer than `n`. -/
theorem chunks_last (l : List Subtitle) (n : Nat) (hn : 0 < n) (hl : l ≠ []) :
    split_subtitles_into_chunks l n ≠ [] ∧
      1 ≤ ((split_subtitles_into_chunks l n).getLastD []).length ∧
      ((split_subtitles_into_chunks l n).getLastD []).length ≤ n := by
  revert hn hl
  induction l, n using split_subtitles_into_chunks.induct with
  | case1 l n h =>
    intro hn hl
    rcases h with h | h
    · omega
    · exact absurd h hl
  | case2 l n h ih =>
    intro hn hl
    simp only [not_or] at h
    rw [chunks_cons l n h.1 h.2]
    rcases Classical.em (l.drop n = []) with hd | hd
    · refine ⟨by simp, ?_⟩
      rw [hd, chunks_nil]
      simp only [List.getLastD_cons, List.getLastD_nil]
      have hlen : 0 < l.length := List.length_pos.mpr h.2
      simp [List.length_take]
      omega
    · obtain ⟨hne, h1, h2⟩ := ih hn hd
      refine ⟨by simp, ?_⟩
      obtain ⟨r, rs, hrr⟩ := List.exists_cons_of_ne_nil hne
      rw [hrr] at h1 h2 ⊢
      simp only [List.getLastD_cons] at h1 h2 ⊢
      exact ⟨h1, h2⟩

/-! ### Reassembly helper lemmas -/

theorem reassembleGo_length (chunk : List Subtitle) :
    ∀ (i : Nat) (tls : List (List Char)), (reassembleGo i chunk tls).length = chunk.length := by
  induction chunk with
  | nil => intro i tls; rfl
  | cons sub rest ih =>
    intro i tls
    simp only [reassembleGo, List.length_cons, ih]

theorem reassembleChunk_length (chunk : List Subtitle) (tls : List (List Char)) :
    (reassembleChunk chunk tls).length = chunk.length :=
  reassembleGo_length chunk 0 tls

theorem reassembleGo_get? (chunk : List Subtitle) :
    ∀ (i j : Nat) (tls : List (List Char)),
      (reassembleGo i chunk tls).get? j = (chunk.get? j).map (fun sub =>
        { index := sub.index, start := sub.start, «end» := sub.«end»,
          text := pickText tls (i + j) sub.text,
          style := sub.style, name := sub.name,
          margin_l := sub.margin_l, margin_r := sub.margin_r,
          margin_v := sub.margin_v, effect := sub.effect }) := by
  induction chunk with
  | nil => intro i j tls; rfl
  | cons sub rest ih =>
    intro i j tls
    match j with
    | 0 => rfl
    | j + 1 =>
      simp only [reassembleGo, List.get?]
      rw [ih (i + 1) j tls]
      have : i + 1 + j = i + (j + 1) := by omega
      rw [this]

/-- Metadata equality between two records: every field except `text`. -/
def sameMeta (a b : Subtitle) : Prop :=
  a.index = b.index ∧ a.start = b.start ∧ a.«end» = b.«end» ∧ a.style = b.style ∧
  a.name = b.name ∧ a.margin_l = b.margin_l ∧ a.margin_r = b.margin_r ∧
  a.margin_v = b.margin_v ∧ a.effect = b.effect

theorem reassembleGo_forall2 (chunk : List Subtitle) :
    ∀ (i : Nat) (tls : List (List Char)),
      List.Forall₂ sameMeta (reassembleGo i chunk tls) chunk := by
  induction chunk with
  | nil => intro i tls; exact List.Forall₂.nil
  | cons sub rest ih =>
    intro i tls
    exact List.Forall₂.cons ⟨rfl, rfl, rfl, rfl, rfl, rfl, rfl, rfl, rfl⟩ (ih (i + 1) tls)

theorem forall2_append {α β : Type} {R : α → β → Prop} {a c : List α} {b d : List β}
    (h1 : List.Forall₂ R a b) (h2 : List.Forall₂ R c d) :
    List.Forall₂ R (a ++ c) (b ++ d) := by
  induction h1 with
  | nil => exact h2
  | cons hr _ ih => exact List.Forall₂.cons hr ih

/-! ### Sorting helper lemmas -/

/-- Key order on completed results. -/
def keyLe (a b : Nat × List (List Char)) : Prop := a.1 ≤ b.1

theorem insertResult_perm (x : Nat × List (List Char)) (l : List (Nat × List (List Char))) :
    (insertResult x l).Perm (x :: l) := by
  induction l with
  | nil => rfl
  | cons y ys ih =>
    rw [insertResult]
    by_cases h : y.1 ≤ x.1
    · simp only [if_pos h]
      exact (ih.cons y).trans (List.Perm.swap x y ys)
    · simp only [if_neg h]
      exact List.Perm.refl _

theorem sortResults_perm (l : List (Nat × List (List Char))) :
    (sortResults l).Perm l := by
  induction l with
  | nil => rfl
  | cons x xs ih =>
    have h1 : sortResults (x :: xs) = insertResult x (sortResults xs) := rfl
    rw [h1]
    exact (insertResult_perm x (sortResults xs)).trans (ih.cons x)

theorem insertResult_sorted (x : Nat × List (List Char))
    (l : List (Nat × List (List Char))) (h : l.Pairwise keyLe) :
    (insertResult x l).Pairwise keyLe := by
  induction l with
  | nil => exact List.pairwise_singleton keyLe x
  | cons y ys ih =>
    rw [insertResult]
    rcases List.pairwise_cons.mp h with ⟨hy, hys⟩
    by_cases hle : y.1 ≤ x.1
    · simp only [if_pos hle]
      refine List.pairwise_cons.mpr ⟨?_, ih hys⟩
      intro a ha
      rcases List.mem_cons.mp ((insertResult_perm x ys).mem_iff.mp ha) with rfl | hmem
      · exact hle
      · exact hy a hmem
    · simp only [if_neg hle]
      refine List.pairwise_cons.mpr ⟨?_, h⟩
      intro a ha
      rcases List.mem_cons.mp ha with rfl | hmem
      · exact Nat.le_of_not_le hle
      · exact Nat.le_trans (Nat.le_of_not_le hle) (hy a hmem)

theorem sortResults_sorted (l : List (Nat × List (List Char))) :
    (sortResults l).Pairwise keyLe := by
  induction l with
  | nil => exact List.Pairwise.nil
  | cons x xs ih => exact insertResult_sorted x (sortResults xs) ih

/-- Two key-sorted lists with duplicate-free keys that are permutations of
each other are equal. -/
theorem sorted_nodup_perm_eq (l1 l2 : List (Nat × List (List Char)))
    (hp : l1.Perm l2) (hs1 : l1.Pairwise keyLe) (hs2 : l2.Pairwise keyLe)
    (hn : (l1.map Prod.fst).Nodup) : l1 = l2 := by
  have hn2 : (l2.map Prod.fst).Nodup := ((hp.map Prod.fst).nodup_iff).mp hn
  have hlt1 : l1.Pairwise (fun a b => a.1 < b.1) := by
    have hne : l1.Pairwise (fun a b => a.1 ≠ b.1) := List.pairwise_map.mp hn
    exact (hs1.and hne).imp (fun h => Nat.lt_of_le_of_ne h.1 h.2)
  have hlt2 : l2.Pairwise (fun a b => a.1 < b.1) := by
    have hne : l2.Pairwise (fun a b => a.1 ≠ b.1) := List.pairwise_map.mp hn2
    exact (hs2.and hne).imp (fun h => Nat.lt_of_le_of_ne h.1 h.2)
  haveI : IsAntisymm (Nat × List (List Char)) (fun a b => a.1 < b.1) :=
    ⟨fun a b h1 h2 => absurd (Nat.lt_trans h1 h2) (Nat.lt_irrefl _)⟩
  exact List.eq_of_perm_of_sorted hp hlt1 hlt2

theorem sortResults_eq_of_perm (rs1 rs2 : List (Nat × List (List Char)))
    (hp : rs1.Perm rs2) (hn : (rs1.map Prod.fst).Nodup) :
    sortResults rs1 = sortResults rs2 := by
  have h1 := sortResults_perm rs1
  have h2 := sortResults_perm rs2
  refine sorted_nodup_perm_eq _ _ ((h1.trans hp).trans h2.symm)
    (sortResults_sorted rs1) (sortResults_sorted rs2) ?_
  exact ((h1.map Prod.fst).nodup_iff).mpr hn

theorem sortResults_eq_self (l : List (Nat × List (List Char)))
    (h : l.Pairwise (fun a b => a.1 < b.1)) : sortResults l = l := by
  induction l with
  | nil => rfl
  | cons x xs ih =>
    rcases List.pairwise_cons.mp h with ⟨hx, hxs⟩
    have h1 : sortResults (x :: xs) = insertResult x (sortResults xs) := rfl
    rw [h1, ih hxs]
    match xs, hx with
    | [], _ => rfl
    | y :: ys, hx =>
      rw [insertResult]
      have : ¬ y.1 ≤ x.1 := by
        have := hx y (by simp)
        omega
      simp only [if_neg this]


/-! ### Context-window helper lemmas -/

theorem takeLast_eq_drop {α : Type} (l : List α) (k : Nat) :
    (l.reverse.take k).reverse = l.drop (l.length - k) := by
  rw [List.reverse_take]
  simp

/-! ### Pipeline composition lemmas -/

theorem c9_core (cs : List (List Subtitle)) :
    ∀ R : Nat → List (List Char),
      List.Forall₂ sameMeta
        ((List.range cs.length).flatMap (fun i => reassembleChunk (cs.getD i []) (R i)))
        cs.flatten := by
  induction cs with
  | nil =>
    intro R
    simp only [List.length_nil, List.range_zero, List.flatMap_nil, List.flatten_nil]
    exact List.Forall₂.nil
  | cons c cs' ih =>
    intro R
    rw [List.length_cons, List.range_succ_eq_map]
    rw [List.flatMap_cons, List.flatMap_map, List.flatten_cons]
    apply forall2_append
    · simp only [List.getD_cons_zero]
      exact reassembleGo_forall2 c 0 (R 0)
    · have := ih (fun i => R (i + 1))
      simp only [Nat.succ_eq_add_one, List.getD_cons_succ]
      exact this

theorem translate_subtitles_eq (f : Backend) (subs : List Subtitle)
    (theme : Option (List Char)) (n : Nat) :
    translate_subtitles f subs theme n =
      (List.range (split_subtitles_into_chunks subs n).length).flatMap
        (fun i => reassembleChunk ((split_subtitles_into_chunks subs n).getD i [])
          ((translate_chunk f ((split_subtitles_into_chunks subs n).getD i [])
            (split_subtitles_into_chunks subs n) i theme).2)) := by
  unfold translate_subtitles reassembleAll
  dsimp only
  have hkeys : (((List.range (split_subtitles_into_chunks subs n).length).map
      (fun i => translate_chunk f ((split_subtitles_into_chunks subs n).getD i [])
        (split_subtitles_into_chunks subs n) i theme))).Pairwise
      (fun a b => a.1 < b.1) := by
    rw [List.pairwise_map]
    exact List.pairwise_lt_range _
  rw [sortResults_eq_self _ hkeys, List.flatMap_map]
  rfl

/-! ### Claim theorems -/

/-- C1: for every caption list `L` and chunk size `n > 0`, the chunker's
blocks concatenate back to `L` in order, their number is `⌈|L|/n⌉`, every
block except possibly the last has length exactly `n`, and when `L` is
non-empty the last block has length between 1 and `n`. -/
theorem claim_C1 (L : List Subtitle) (n : Nat) (hn : 0 < n) :
    (split_subtitles_into_chunks L n).flatten = L ∧
    (split_subtitles_into_chunks L n).length = (L.length + n - 1) / n ∧
    (∀ i, i + 1 < (split_subtitles_into_chunks L n).length →
      ((split_subtitles_into_chunks L n).getD i []).length = n) ∧
    (L ≠ [] →
      split_subtitles_into_chunks L n ≠ [] ∧
      1 ≤ ((split_subtitles_into_chunks L n).getLastD []).length ∧
      ((split_subtitles_into_chunks L n).getLastD []).length ≤ n) :=
  ⟨chunks_join L n hn, chunks_count L n hn,
   fun i hi => chunks_full L n hn i hi, fun hL => chunks_last L n hn hL⟩

theorem claim_C1_witness :
    0 < 2 ∧
    ((split_subtitles_into_chunks [wSub 1 [], wSub 2 [], wSub 3 [], wSub 4 [], wSub 5 []] 2).flatten =
        [wSub 1 [], wSub 2 [], wSub 3 [], wSub 4 [], wSub 5 []] ∧
      (split_subtitles_into_chunks [wSub 1 [], wSub 2 [], wSub 3 [], wSub 4 [], wSub 5 []] 2).length =
        ([wSub 1 [], wSub 2 [], wSub 3 [], wSub 4 [], wSub 5 []].length + 2 - 1) / 2 ∧
      (∀ i, i + 1 < (split_subtitles_into_chunks [wSub 1 [], wSub 2 [], wSub 3 [], wSub 4 [], wSub 5 []] 2).length →
        ((split_subtitles_into_chunks [wSub 1 [], wSub 2 [], wSub 3 [], wSub 4 [], wSub 5 []] 2).getD i []).length = 2) ∧
      ([wSub 1 [], wSub 2 [], wSub 3 [], wSub 4 [], wSub 5 []] ≠ ([] : List Subtitle) →
        split_subtitles_into_chunks [wSub 1 [], wSub 2 [], wSub 3 [], wSub 4 [], wSub 5 []] 2 ≠ [] ∧
        1 ≤ ((split_subtitles_into_chunks [wSub 1 [], wSub 2 [], wSub 3 [], wSub 4 [], wSub 5 []] 2).getLastD []).length ∧
        ((split_subtitles_into_chunks [wSub 1 [], wSub 2 [], wSub 3 [], wSub 4 [], wSub 5 []] 2).getLastD []).length ≤ 2)) :=
  ⟨by decide, claim_C1 [wSub 1 [], wSub 2 [], wSub 3 [], wSub 4 [], wSub 5 []] 2 (by decide)⟩

/-- C5: during reassembly, the record at offset `j` of its block gets the
`j`-th line of the backend's newline-split answer, whitespace-trimmed, when
that answer has more than `j` lines, and keeps its original text verbatim
otherwise; the block never fails and keeps its length. -/
theorem claim_C5 (chunk : List Subtitle) (tls : List (List Char)) (j : Nat)
    (hj : j < chunk.length) :
    (reassembleChunk chunk tls).length = chunk.length ∧
    ((reassembleChunk chunk tls).get
        ⟨j, by rw [reassembleChunk_length]; exact hj⟩).text =
      if h : j < tls.length then stripWs (tls.get ⟨j, h⟩)
      else (chunk.get ⟨j, hj⟩).text := by
  refine ⟨reassembleChunk_length chunk tls, ?_⟩
  have hj2 : j < (reassembleGo 0 chunk tls).length := by
    rw [reassembleGo_length]
    exact hj
  have hq := reassembleGo_get? chunk 0 j tls
  rw [List.get?_eq_get hj2, List.get?_eq_get hj] at hq
  simp only [Option.map_some'] at hq
  have heq := Option.some.inj hq
  have hgoal : (reassembleChunk chunk tls).get
      ⟨j, by rw [reassembleChunk_length]; exact hj⟩ =
      (reassembleGo 0 chunk tls).get ⟨j, hj2⟩ := rfl
  rw [hgoal, heq]
  show pickText tls (0 + j) (chunk.get ⟨j, hj⟩).text = _
  rw [Nat.zero_add]
  unfold pickText
  by_cases hlt : j < tls.length
  · rw [List.get?_eq_get hlt]
    simp [hlt]
  · rw [List.get?_eq_none.mpr (Nat.le_of_not_lt hlt)]
    simp [hlt]

theorem claim_C5_witness :
    1 < ([wSub 1 ("keep".toList), wSub 2 ("orig".toList)] : List Subtitle).length ∧
    ((reassembleChunk [wSub 1 ("keep".toList), wSub 2 ("orig".toList)] [" new ".toList]).length =
        ([wSub 1 ("keep".toList), wSub 2 ("orig".toList)] : List Subtitle).length ∧
      ((reassembleChunk [wSub 1 ("keep".toList), wSub 2 ("orig".toList)] [" new ".toList]).get
          ⟨1, by rw [reassembleChunk_length]; decide⟩).text =
        if h : 1 < ([" new ".toList] : List (List Char)).length
        then stripWs (([" new ".toList] : List (List Char)).get ⟨1, h⟩)
        else (([wSub 1 ("keep".toList), wSub 2 ("orig".toList)] : List Subtitle).get ⟨1, by decide⟩).text) :=
  ⟨by decide, claim_C5 [wSub 1 ("keep".toList), wSub 2 ("orig".toList)] [" new ".toList] 1 (by decide)⟩

/-- C6: reassembly is invariant under the order in which per-block results
arrive: on any two permutations of one result set (one result per block
position), the reassembled outputs are equal, because results are sorted by
block position before reassembly. -/
theorem claim_C6 (chunks : List (List Subtitle)) (rs1 rs2 : List (Nat × List (List Char)))
    (hperm : rs1.Perm rs2) (hnodup : (rs1.map Prod.fst).Nodup) :
    reassembleAll chunks rs1 = reassembleAll chunks rs2 := by
  unfold reassembleAll
  rw [sortResults_eq_of_perm rs1 rs2 hperm hnodup]

theorem claim_C6_witness :
    ([(1, ["b".toList]), (0, ["a".toList])] : List (Nat × List (List Char))).Perm
      [(0, ["a".toList]), (1, ["b".toList])] ∧
    (([(1, ["b".toList]), (0, ["a".toList])] : List (Nat × List (List Char))).map Prod.fst).Nodup ∧
    reassembleAll [[wSub 1 []], [wSub 2 []]] [(1, ["b".toList]), (0, ["a".toList])] =
      reassembleAll [[wSub 1 []], [wSub 2 []]] [(0, ["a".toList]), (1, ["b".toList])] :=
  ⟨by decide, by decide,
   claim_C6 [[wSub 1 []], [wSub 2 []]] [(1, ["b".toList]), (0, ["a".toList])]
     [(0, ["a".toList]), (1, ["b".toList])] (by decide) (by decide)⟩

/-- C9: the orchestrator's output has the same length as its input and every
record keeps the index, timing, style, name, margins and effect of the input
record at the same position; only the text may change. -/
theorem claim_C9 (f : Backend) (subs : List Subtitle) (theme : Option (List Char))
    (n : Nat) (hn : 0 < n) :
    (translate_subtitles f subs theme n).length = subs.length ∧
    ∀ k (h1 : k < (translate_subtitles f subs theme n).length) (h2 : k < subs.length),
      sameMeta ((translate_subtitles f subs theme n).get ⟨k, h1⟩) (subs.get ⟨k, h2⟩) := by
  have hF : List.Forall₂ sameMeta (translate_subtitles f subs theme n) subs := by
    rw [translate_subtitles_eq]
    have := c9_core (split_subtitles_into_chunks subs n)
      (fun i => (translate_chunk f ((split_subtitles_into_chunks subs n).getD i [])
        (split_subtitles_into_chunks subs n) i theme).2)
    rw [chunks_join subs n hn] at this
    exact this
  exact ⟨hF.length_eq, fun k h1 h2 => (List.forall₂_iff_get.mp hF).2 k h1 h2⟩

theorem claim_C9_witness :
    0 < 1 ∧
    ((translate_subtitles backendEcho [wSub 1 ("a".toList), wSub 2 ("b".toList)] none 1).length =
        ([wSub 1 ("a".toList), wSub 2 ("b".toList)] : List Subtitle).length ∧
      ∀ k (h1 : k < (translate_subtitles backendEcho [wSub 1 ("a".toList), wSub 2 ("b".toList)] none 1).length)
        (h2 : k < ([wSub 1 ("a".toList), wSub 2 ("b".toList)] : List Subtitle).length),
        sameMeta ((translate_subtitles backendEcho [wSub 1 ("a".toList), wSub 2 ("b".toList)] none 1).get ⟨k, h1⟩)
          (([wSub 1 ("a".toList), wSub 2 ("b".toList)] : List Subtitle).get ⟨k, h2⟩)) :=
  ⟨by decide, claim_C9 backendEcho [wSub 1 ("a".toList), wSub 2 ("b".toList)] none 1 (by decide)⟩

/-- C4: for a block at position `i` of `N`, the backend receives as previous
context exactly the texts of the last three captions of block `i - 1`
(absent when `i = 0`) and as after context exactly the texts of the first
two captions of block `i + 1` (absent when `i = N - 1`). -/
theorem claim_C4 (f : Backend) (chunk : List Subtitle) (chunks : List (List Subtitle))
    (i : Nat) (theme : Option (List Char)) (hi : i < chunks.length) :
    translate_chunk f chunk chunks i theme =
      (i, splitNl (f
        (joinNl (chunk.map (fun sub => sub.text.map (fun c => if c = '\n' then ' ' else c))))
        (if i = 0 then none
         else some ((((chunks.get ⟨i - 1, by omega⟩).map Subtitle.text).reverse.take 3).reverse))
        (if hz : i + 1 = chunks.length then none
         else some (((chunks.get ⟨i + 1, by omega⟩).map Subtitle.text).take 2))
        theme i)) := by
  unfold translate_chunk
  dsimp only
  have hprev : (if 0 < i then
      some (((chunks.getD (i - 1) []).drop ((chunks.getD (i - 1) []).length - 3)).map Subtitle.text)
    else none) =
      (if i = 0 then none
       else some ((((chunks.get ⟨i - 1, by omega⟩).map Subtitle.text).reverse.take 3).reverse)) := by
    by_cases h0 : i = 0
    · simp [h0]
    · have hpos : 0 < i := Nat.pos_of_ne_zero h0
      rw [if_pos hpos, if_neg h0]
      have hgd : chunks.getD (i - 1) [] = chunks.get ⟨i - 1, by omega⟩ := by
        rw [List.getD_eq_getElem _ _ (by omega : i - 1 < chunks.length), List.get_eq_getElem]
      rw [hgd, takeLast_eq_drop, List.length_map, ← List.map_drop]
  have hafter : (if i < chunks.length - 1 then
      some (((chunks.getD (i + 1) []).take 2).map Subtitle.text)
    else none) =
      (if hz : i + 1 = chunks.length then none
       else some (((chunks.get ⟨i + 1, by omega⟩).map Subtitle.text).take 2)) := by
    by_cases h1 : i + 1 = chunks.length
    · have : ¬ i < chunks.length - 1 := by omega
      rw [if_neg this, dif_pos h1]
    · have : i < chunks.length - 1 := by omega
      rw [if_pos this, dif_neg h1]
      have hgd : chunks.getD (i + 1) [] = chunks.get ⟨i + 1, by omega⟩ := by
        rw [List.getD_eq_getElem _ _ (by omega : i + 1 < chunks.length), List.get_eq_getElem]
      rw [hgd, List.map_take]
  rw [hprev, hafter]

theorem claim_C4_witness :
    1 < wChunksC4.length ∧
    translate_chunk backendEcho [wSub 5 ("e".toList)] wChunksC4 1 none =
      (1, splitNl (backendEcho
        (joinNl ([wSub 5 ("e".toList)].map
          (fun sub => sub.text.map (fun c => if c = '\n' then ' ' else c))))
        (if (1 : Nat) = 0 then none
         else some ((((wChunksC4.get ⟨1 - 1, by decide⟩).map Subtitle.text).reverse.take 3).reverse))
        (if hz : 1 + 1 = wChunksC4.length then none
         else some (((wChunksC4.get ⟨1 + 1, by decide⟩).map Subtitle.text).take 2))
        none 1)) :=
  ⟨by decide, claim_C4 backendEcho [wSub 5 ("e".toList)] wChunksC4 1 none (by decide)⟩

/-! ### Dispatcher and ASS-parser claim lemmas -/

theorem startsWithList_iff (small : List Char) :
    ∀ big : List Char, startsWithList big small = true ↔ ∃ t, big = small ++ t := by
  induction small with
  | nil =>
    intro big
    simp only [List.nil_append]
    constructor
    · intro _
      exact ⟨big, rfl⟩
    · intro _
      cases big
      · rfl
      · rfl
  | cons p ps ih =>
    intro big
    cases big with
    | nil =>
      simp only [startsWithList]
      constructor
      · intro h
        exact absurd h (by simp)
      · rintro ⟨t, ht⟩
        exact absurd ht (by simp)
    | cons c rest =>
      simp only [startsWithList, Bool.and_eq_true, decide_eq_true_eq, ih rest]
      constructor
      · rintro ⟨rfl, t, rfl⟩
        exact ⟨t, rfl⟩
      · rintro ⟨t, ht⟩
        injection ht with h1 h2
        exact ⟨h1, t, h2⟩

/-- C7: for every path whose lowercased extension is not `.srt`, `.ass`,
`.ssa` or `.vtt`, the read dispatcher fails with the unsupported-format
error naming the offending path, while the write dispatcher does not error
and falls back to the SRT codec. -/
theorem claim_C7 (file_path content : List Char) (subs : List Subtitle)
    (md : Option ASSMetadata)
    (h : lowerChars (pathSuffix file_path) ∉ [sDotSrt, sDotAss, sDotSsa, sDotVtt]) :
    parse_subtitle file_path content = Except.error (sUnsupportedMsg ++ file_path) ∧
    write_subtitle subs file_path md = write_srt subs := by
  simp only [List.mem_cons, List.not_mem_nil, or_false, not_or] at h
  obtain ⟨h1, h2, h3, h4⟩ := h
  have hfmt : detect_subtitle_format file_path = sUnknown := by
    unfold detect_subtitle_format
    rw [if_neg h1, if_neg (not_or.mpr ⟨h2, h3⟩), if_neg h4]
  constructor
  · unfold parse_subtitle
    rw [hfmt, if_neg (by decide), if_neg (by decide), if_neg (by decide)]
  · unfold write_subtitle
    rw [hfmt, if_neg (by decide), if_neg (by decide), if_neg (by decide)]

theorem claim_C7_witness :
    lowerChars (pathSuffix ("video.txt".toList)) ∉ [sDotSrt, sDotAss, sDotSsa, sDotVtt] ∧
    (parse_subtitle ("video.txt".toList) ("x".toList) =
        Except.error (sUnsupportedMsg ++ "video.txt".toList) ∧
      write_subtitle [wSub 1 []] ("video.txt".toList) none = write_srt [wSub 1 []]) :=
  ⟨by decide, claim_C7 ("video.txt".toList) ("x".toList) [wSub 1 []] none (by decide)⟩

/-- C10: a `Dialogue:` line reaching the events section before any
`Format:` line is not dropped: the empty field order satisfies the
fewer-fields guard vacuously and a record with every field defaulted is
appended (times `00:00:00,000`, empty text, style `Default`, zero
margins). -/
theorem claim_C10 (st : AssParseState) (rawLine : List Char)
    (hsec : st.current_section = some sEvents)
    (hfmt : st.dialogue_format = [])
    (hdlg : startsWithList (stripWs rawLine) sDialogueColon = true) :
    (parse_ass_line st rawLine).subtitles =
      st.subtitles ++ [{ index := Int.ofNat (st.subtitles.length + 1),
                         start := sDefaultSrtTime, «end» := sDefaultSrtTime,
                         text := [], style := sDefaultStyle, name := [],
                         margin_l := 0, margin_r := 0, margin_v := 0,
                         effect := [] }] := by
  obtain ⟨t, ht⟩ := (startsWithList_iff sDialogueColon (stripWs rawLine)).mp hdlg
  unfold parse_ass_line
  rw [ht, hsec, hfmt]
  have hhead : ¬ ((sDialogueColon ++ t).head? = some '[' ∧
      (sDialogueColon ++ t).getLast? = some ']') := by
    intro hc
    have : (sDialogueColon ++ t).head? = some 'D' := rfl
    rw [this] at hc
    exact absurd hc.1 (by decide)
  rw [if_neg hhead]
  have hnf : startsWithList (sDialogueColon ++ t) sFormatColon = false := rfl
  have hd : startsWithList (sDialogueColon ++ t) sDialogueColon = true := by
    exact (startsWithList_iff sDialogueColon (sDialogueColon ++ t)).mpr ⟨t, rfl⟩
  simp only [hnf, hd]
  simp only [if_true, Bool.false_eq_true, if_false, List.length_nil, Nat.zero_le]
  rfl

theorem claim_C10_witness :
    wAssStateC10.current_section = some sEvents ∧
    wAssStateC10.dialogue_format = [] ∧
    startsWithList (stripWs ("Dialogue: 0,0:00:01.00,hi".toList)) sDialogueColon = true ∧
    (parse_ass_line wAssStateC10 ("Dialogue: 0,0:00:01.00,hi".toList)).subtitles =
      wAssStateC10.subtitles ++ [{ index := Int.ofNat (wAssStateC10.subtitles.length + 1),
                                   start := sDefaultSrtTime, «end» := sDefaultSrtTime,
                                   text := [], style := sDefaultStyle, name := [],
                                   margin_l := 0, margin_r := 0, margin_v := 0,
                                   effect := [] }] :=
  ⟨rfl, rfl, by decide,
   claim_C10 wAssStateC10 ("Dialogue: 0,0:00:01.00,hi".toList) rfl rfl (by decide)⟩

/-! ### Decimal digit lemmas -/

theorem digitChar_isDigit (d : Nat) (hd : d < 10) : (Nat.digitChar d).isDigit = true := by
  interval_cases d <;> decide

theorem digitChar_toNat (d : Nat) (hd : d < 10) : (Nat.digitChar d).toNat - 48 = d := by
  interval_cases d <;> decide

theorem natToCharsAux_irrel : ∀ n f1 f2, n ≤ f1 → n ≤ f2 →
    natToCharsAux f1 n = natToCharsAux f2 n := by
  intro n
  induction n using Nat.strong_induction_on with
  | _ n ih =>
    intro f1 f2 h1 h2
    match n, f1, f2 with
    | 0, f1, f2 =>
      cases f1 <;> cases f2 <;> rfl
    | n + 1, f1 + 1, f2 + 1 =>
      show natToCharsAux f1 ((n + 1) / 10) ++ _ = natToCharsAux f2 ((n + 1) / 10) ++ _
      rw [ih ((n + 1) / 10) (by omega : (n + 1) / 10 < n + 1) f1 f2
        (by omega : (n + 1) / 10 ≤ f1) (by omega : (n + 1) / 10 ≤ f2)]

theorem natToChars_small (n : Nat) (h0 : 0 < n) (h : n < 10) :
    natToChars n = [Nat.digitChar n] := by
  match n, h0 with
  | n + 1, _ =>
    show natToCharsAux (n + 1) (n + 1) = _
    show natToCharsAux n ((n + 1) / 10) ++ [Nat.digitChar ((n + 1) % 10)] = _
    have hd : (n + 1) / 10 = 0 := Nat.div_eq_of_lt h
    have hm : (n + 1) % 10 = n + 1 := Nat.mod_eq_of_lt h
    rw [hd, hm]
    cases n <;> rfl

theorem natToChars_step (n : Nat) (h : 10 ≤ n) :
    natToChars n = natToChars (n / 10) ++ [Nat.digitChar (n % 10)] := by
  match n, h with
  | n + 1, h =>
    show natToCharsAux (n + 1) (n + 1) = _
    show natToCharsAux n ((n + 1) / 10) ++ [Nat.digitChar ((n + 1) % 10)] = _
    have hpos : 0 < (n + 1) / 10 := Nat.div_pos h (by omega)
    have : natToChars ((n + 1) / 10) = natToCharsAux ((n + 1) / 10) ((n + 1) / 10) := by
      unfold natToChars
      rw [if_neg (by omega)]
    rw [this, natToCharsAux_irrel ((n + 1) / 10) n ((n + 1) / 10)
      (by omega : (n + 1) / 10 ≤ n) (Nat.le_refl _)]

theorem natToChars_ne_nil (n : Nat) : natToChars n ≠ [] := by
  rcases Nat.lt_or_ge n 10 with h | h
  · rcases Nat.eq_zero_or_pos n with rfl | h0
    · decide
    · rw [natToChars_small n h0 h]
      simp
  · rw [natToChars_step n h]
    simp

theorem natToChars_digits (n : Nat) : ∀ c ∈ natToChars n, c.isDigit = true := by
  induction n using Nat.strong_induction_on with
  | _ n ih =>
    intro c hc
    rcases Nat.lt_or_ge n 10 with h | h
    · rcases Nat.eq_zero_or_pos n with rfl | h0
      · simp only [natToChars, if_pos rfl] at hc
        rcases List.mem_singleton.mp hc with rfl
        decide
      · rw [natToChars_small n h0 h] at hc
        rcases List.mem_singleton.mp hc with rfl
        exact digitChar_isDigit n h
    · rw [natToChars_step n h] at hc
      rcases List.mem_append.mp hc with hm | hm
      · exact ih (n / 10) (by omega) c hm
      · rcases List.mem_singleton.mp hm with rfl
        exact digitChar_isDigit (n % 10) (Nat.mod_lt n (by omega))

theorem digitsVal_append_last (xs : List Char) (c : Char) :
    digitsVal (xs ++ [c]) = digitsVal xs * 10 + (c.toNat - 48) := by
  unfold digitsVal
  rw [List.foldl_append]
  rfl

theorem digitsVal_natToChars (n : Nat) : digitsVal (natToChars n) = n := by
  induction n using Nat.strong_induction_on with
  | _ n ih =>
    rcases Nat.lt_or_ge n 10 with h | h
    · rcases Nat.eq_zero_or_pos n with rfl | h0
      · decide
      · rw [natToChars_small n h0 h]
        show 0 * 10 + ((Nat.digitChar n).toNat - 48) = n
        rw [Nat.zero_mul, Nat.zero_add, digitChar_toNat n h]
    · rw [natToChars_step n h, digitsVal_append_last,
        ih (n / 10) (by omega), digitChar_toNat (n % 10) (Nat.mod_lt n (by omega))]
      omega

theorem natToChars_len_le (n : Nat) (w : Nat) (hn : n < 10 ^ w) (hw : 0 < w) :
    (natToChars n).length ≤ w := by
  induction w generalizing n with
  | zero => omega
  | succ w ihw =>
    rcases Nat.lt_or_ge n 10 with h | h
    · rcases Nat.eq_zero_or_pos n with rfl | h0
      · simp [natToChars]
      · rw [natToChars_small n h0 h]
        simp
    · have hw0 : 0 < w := by
        by_contra hc
        push_neg at hc
        interval_cases w
        simp at hn
        omega
      rw [natToChars_step n h]
      rw [List.length_append]
      have : n / 10 < 10 ^ w := by
        rw [Nat.pow_succ] at hn
        exact (Nat.div_lt_iff_lt_mul (by omega : (0:Nat) < 10)).mpr hn
      have := ihw (n / 10) this hw0
      simp
      omega

theorem padNum2_eq (m : Nat) (hm : m ≤ 99) :
    padNum 2 m = [Nat.digitChar (m / 10), Nat.digitChar (m % 10)] := by
  rcases Nat.lt_or_ge m 10 with h | h
  · rcases Nat.eq_zero_or_pos m with rfl | h0
    · decide
    · unfold padNum
      rw [natToChars_small m h0 h]
      have hd : m / 10 = 0 := Nat.div_eq_of_lt h
      have hmod : m % 10 = m := Nat.mod_eq_of_lt h
      rw [hd, hmod]
      rfl
  · unfold padNum
    rw [natToChars_step m h, natToChars_small (m / 10) (Nat.div_pos h (by omega)) (by omega)]
    rfl

theorem padNum3_eq (v : Nat) (hv : v ≤ 999) :
    padNum 3 v = [Nat.digitChar (v / 100), Nat.digitChar (v / 10 % 10),
      Nat.digitChar (v % 10)] := by
  rcases Nat.lt_or_ge v 100 with h2 | h2
  · rcases Nat.lt_or_ge v 10 with h1 | h1
    · rcases Nat.eq_zero_or_pos v with rfl | h0
      · decide
      · unfold padNum
        rw [natToChars_small v h0 h1]
        have e1 : v / 100 = 0 := Nat.div_eq_of_lt (by omega)
        have e2 : v / 10 = 0 := Nat.div_eq_of_lt h1
        have e3 : v % 10 = v := Nat.mod_eq_of_lt h1
        rw [e1, e2, e3]
        rfl
    · unfold padNum
      rw [natToChars_step v h1, natToChars_small (v / 10) (Nat.div_pos h1 (by omega)) (by omega)]
      have e1 : v / 100 = 0 := Nat.div_eq_of_lt h2
      have e2 : v / 10 % 10 = v / 10 := Nat.mod_eq_of_lt (by omega)
      rw [e1, e2]
      rfl
  · unfold padNum
    have h10 : 10 ≤ v / 10 := by omega
    rw [natToChars_step v (by omega), natToChars_step (v / 10) h10,
      natToChars_small (v / 10 / 10) (by omega) (by omega)]
    have e1 : v / 10 / 10 = v / 100 := by
      rw [Nat.div_div_eq_div_mul]
    rw [e1]
    rfl

theorem digitsVal_padNum2 (m : Nat) (hm : m ≤ 99) : digitsVal (padNum 2 m) = m := by
  rw [padNum2_eq m hm]
  show (0 * 10 + ((Nat.digitChar (m / 10)).toNat - 48)) * 10 +
    ((Nat.digitChar (m % 10)).toNat - 48) = m
  rw [Nat.zero_mul, Nat.zero_add, digitChar_toNat (m / 10) (by omega),
    digitChar_toNat (m % 10) (Nat.mod_lt m (by omega))]
  omega

theorem digitsVal_padNum3 (v : Nat) (hv : v ≤ 999) : digitsVal (padNum 3 v) = v := by
  rw [padNum3_eq v hv]
  show ((0 * 10 + ((Nat.digitChar (v / 100)).toNat - 48)) * 10 +
    ((Nat.digitChar (v / 10 % 10)).toNat - 48)) * 10 +
    ((Nat.digitChar (v % 10)).toNat - 48) = v
  rw [digitChar_toNat (v / 100) (by omega),
    digitChar_toNat (v / 10 % 10) (Nat.mod_lt _ (by omega)),
    digitChar_toNat (v % 10) (Nat.mod_lt _ (by omega))]
  omega

theorem takeWhile_digits_append (H : List Char) (hH : ∀ c ∈ H, c.isDigit = true)
    (R : List Char) : (H ++ ':' :: R).takeWhile Char.isDigit = H := by
  induction H with
  | nil => rfl
  | cons c t ih =>
    have hc : c.isDigit = true := hH c (by simp)
    simp only [List.cons_append, List.takeWhile_cons, hc, if_true]
    rw [ih (fun d hd => hH d (by simp [hd]))]

theorem matchAssTime_build (H : List Char) (hne : H ≠ [])
    (hH : ∀ c ∈ H, c.isDigit = true)
    (m1 m2 s1 s2 c1 c2 : Char) (rest : List Char)
    (h1 : m1.isDigit = true) (h2 : m2.isDigit = true) (h3 : s1.isDigit = true)
    (h4 : s2.isDigit = true) (h5 : c1.isDigit = true) (h6 : c2.isDigit = true) :
    matchAssTime (H ++ ':' :: m1 :: m2 :: ':' :: s1 :: s2 :: '.' :: c1 :: c2 :: rest) =
      some (H, [m1, m2], [s1, s2], [c1, c2]) := by
  unfold matchAssTime
  rw [takeWhile_digits_append H hH]
  have hemp : H.isEmpty = false := by
    cases H
    · exact absurd rfl hne
    · rfl
  simp only [hemp, Bool.false_eq_true, if_false, List.drop_left]
  simp only [h1, h2, h3, h4, h5, h6, Bool.and_self, if_true]

theorem matchSrtTime_build (h1 h2 m1 m2 s1 s2 x1 x2 x3 : Char) (rest : List Char)
    (d1 : h1.isDigit = true) (d2 : h2.isDigit = true) (d3 : m1.isDigit = true)
    (d4 : m2.isDigit = true) (d5 : s1.isDigit = true) (d6 : s2.isDigit = true)
    (d7 : x1.isDigit = true) (d8 : x2.isDigit = true) (d9 : x3.isDigit = true) :
    matchSrtTime (h1 :: h2 :: ':' :: m1 :: m2 :: ':' :: s1 :: s2 :: ',' ::
        x1 :: x2 :: x3 :: rest) =
      some ([h1, h2], [m1, m2], [s1, s2], [x1, x2, x3]) := by
  unfold matchSrtTime
  simp only [d1, d2, d3, d4, d5, d6, d7, d8, d9, Bool.and_self, if_true]

theorem ass_to_srt_build (h m s cc : Nat) (hh : h ≤ 99) (hm : m ≤ 99) (hs : s ≤ 99)
    (hcc : cc ≤ 99) :
    _ass_time_to_srt (mkAssTime h m s cc) = mkSrtTime h m s (cc * 10) := by
  unfold mkAssTime
  rw [padNum2_eq m hm, padNum2_eq s hs, padNum2_eq cc hcc]
  unfold _ass_time_to_srt
  have hb := matchAssTime_build (natToChars h) (natToChars_ne_nil h) (natToChars_digits h)
    (Nat.digitChar (m / 10)) (Nat.digitChar (m % 10))
    (Nat.digitChar (s / 10)) (Nat.digitChar (s % 10))
    (Nat.digitChar (cc / 10)) (Nat.digitChar (cc % 10)) []
    (digitChar_isDigit _ (by omega)) (digitChar_isDigit _ (Nat.mod_lt _ (by omega)))
    (digitChar_isDigit _ (by omega)) (digitChar_isDigit _ (Nat.mod_lt _ (by omega)))
    (digitChar_isDigit _ (by omega)) (digitChar_isDigit _ (Nat.mod_lt _ (by omega)))
  simp only [List.append_assoc, List.cons_append, List.nil_append, List.append_nil] at hb ⊢
  rw [hb]
  dsimp only
  rw [digitsVal_natToChars]
  have hcs : digitsVal [Nat.digitChar (cc / 10), Nat.digitChar (cc % 10)] = cc := by
    rw [← padNum2_eq cc hcc]
    exact digitsVal_padNum2 cc hcc
  rw [hcs]
  unfold mkSrtTime
  rw [padNum2_eq m hm, padNum2_eq s hs]
  simp only [List.append_assoc, List.cons_append, List.nil_append]

theorem srt_to_ass_build (h m s ms : Nat) (hh : h ≤ 99) (hm : m ≤ 99) (hs : s ≤ 99)
    (hms : ms ≤ 999) :
    _srt_time_to_ass (mkSrtTime h m s ms) = mkAssTime h m s (ms / 10) := by
  unfold mkSrtTime
  rw [padNum2_eq h hh, padNum2_eq m hm, padNum2_eq s hs, padNum3_eq ms hms]
  unfold _srt_time_to_ass
  have hb := matchSrtTime_build
    (Nat.digitChar (h / 10)) (Nat.digitChar (h % 10))
    (Nat.digitChar (m / 10)) (Nat.digitChar (m % 10))
    (Nat.digitChar (s / 10)) (Nat.digitChar (s % 10))
    (Nat.digitChar (ms / 100)) (Nat.digitChar (ms / 10 % 10)) (Nat.digitChar (ms % 10)) []
    (digitChar_isDigit _ (by omega)) (digitChar_isDigit _ (Nat.mod_lt _ (by omega)))
    (digitChar_isDigit _ (by omega)) (digitChar_isDigit _ (Nat.mod_lt _ (by omega)))
    (digitChar_isDigit _ (by omega)) (digitChar_isDigit _ (Nat.mod_lt _ (by omega)))
    (digitChar_isDigit _ (by omega)) (digitChar_isDigit _ (Nat.mod_lt _ (by omega)))
    (digitChar_isDigit _ (Nat.mod_lt _ (by omega)))
  simp only [List.append_assoc, List.cons_append, List.nil_append, List.append_nil] at hb ⊢
  rw [hb]
  dsimp only
  have hdh : digitsVal [Nat.digitChar (h / 10), Nat.digitChar (h % 10)] = h := by
    rw [← padNum2_eq h hh]
    exact digitsVal_padNum2 h hh
  have hdx : digitsVal [Nat.digitChar (ms / 100), Nat.digitChar (ms / 10 % 10),
      Nat.digitChar (ms % 10)] = ms := by
    rw [← padNum3_eq ms hms]
    exact digitsVal_padNum3 ms hms
  rw [hdh, hdx]
  unfold mkAssTime
  rw [padNum2_eq m hm, padNum2_eq s hs]
  simp only [List.append_assoc, List.cons_append, List.nil_append]

/-- C3: within well-formed time stamps, the ASS→SRT conversion multiplies
the centiseconds by ten and SRT→ASS divides the milliseconds by ten
(truncating), so ASS→SRT→ASS recovers the centisecond value `cc` exactly,
while SRT→ASS→SRT turns a millisecond value `ms` into `10 * (ms / 10)` — a
truncating loss of at most 9 ms. -/
theorem claim_C3 (h m s cc ms : Nat) (hh : h ≤ 99) (hm : m ≤ 99) (hs : s ≤ 99)
    (hcc : cc ≤ 99) (hms : ms ≤ 999) :
    _srt_time_to_ass (_ass_time_to_srt (mkAssTime h m s cc)) = mkAssTime h m s cc ∧
    _ass_time_to_srt (_srt_time_to_ass (mkSrtTime h m s ms)) =
      mkSrtTime h m s (10 * (ms / 10)) := by
  constructor
  · rw [ass_to_srt_build h m s cc hh hm hs hcc,
      srt_to_ass_build h m s (cc * 10) hh hm hs (by omega)]
    rw [Nat.mul_div_cancel cc (by omega : (0:Nat) < 10)]
  · rw [srt_to_ass_build h m s ms hh hm hs hms,
      ass_to_srt_build h m s (ms / 10) hh hm hs (by omega)]
    rw [Nat.mul_comm]

theorem claim_C3_witness :
    (1 ≤ 99 ∧ 2 ≤ 99 ∧ 3 ≤ 99 ∧ 57 ≤ 99 ∧ 123 ≤ 999) ∧
    (_srt_time_to_ass (_ass_time_to_srt (mkAssTime 1 2 3 57)) = mkAssTime 1 2 3 57 ∧
      _ass_time_to_srt (_srt_time_to_ass (mkSrtTime 1 2 3 123)) =
        mkSrtTime 1 2 3 (10 * (123 / 10))) :=
  ⟨by decide, claim_C3 1 2 3 57 123 (by decide) (by decide) (by decide) (by decide) (by decide)⟩

/-! ### VTT claim lemmas -/

theorem parseVttBlocks_indices : ∀ (blocks : List (List Char)) (idx : Nat),
    (parseVttBlocks blocks idx).map Subtitle.index =
      (List.range' (idx + 1) (parseVttBlocks blocks idx).length).map Int.ofNat := by
  intro blocks
  induction blocks with
  | nil => intro idx; rfl
  | cons b rest ih =>
    intro idx
    unfold parseVttBlocks
    match hrec : vttBlockRecord b with
    | none => exact ih idx
    | some (s, e, t) =>
      simp only [List.map_cons, List.length_cons]
      rw [ih (idx + 1)]
      rfl

/-- C8: for accepted VTT input, the produced records carry the sequential
indices 1..N counting only accepted cue blocks, and any block whose first
line begins with STYLE, REGION or NOTE (case-insensitively) contributes no
record at all. -/
theorem claim_C8 (content : List Char) (subs : List Subtitle)
    (hok : parse_vtt content = Except.ok subs)
    (b : List Char) (rest : List (List Char)) (idx : Nat)
    (l0 : List Char) (ls : List (List Char))
    (hsplit : splitNl (stripWs b) = l0 :: ls)
    (hskip : startsWithList (upperChars (stripWs l0)) sSTYLE = true ∨
             startsWithList (upperChars (stripWs l0)) sREGION = true ∨
             startsWithList (upperChars (stripWs l0)) sNOTE = true) :
    subs.map Subtitle.index = (List.range' 1 subs.length).map Int.ofNat ∧
    parseVttBlocks (b :: rest) idx = parseVttBlocks rest idx := by
  constructor
  · unfold parse_vtt at hok
    by_cases hW : startsWithList (stripWs (dropBom content)) sWEBVTT = true
    · rw [if_pos hW] at hok
      have hsubs : parseVttBlocks ((splitBlankRe (stripWs (dropBom content))).drop 1) 0 = subs :=
        Except.ok.inj hok
      rw [← hsubs]
      exact parseVttBlocks_indices _ 0
    · rw [if_neg hW] at hok
      exact absurd hok (by simp)
  · have hrec : vttBlockRecord b = none := by
      unfold vttBlockRecord
      rw [hsplit]
      have hcond : (startsWithList (upperChars (stripWs l0)) sSTYLE ||
          startsWithList (upperChars (stripWs l0)) sREGION ||
          startsWithList (upperChars (stripWs l0)) sNOTE) = true := by
        rcases hskip with h | h | h <;> simp [h]
      simp only [hcond, if_true]
    conv_lhs => rw [parseVttBlocks]
    rw [hrec]

theorem claim_C8_witness :
    parse_vtt ("WEBVTT\n\n00:01.000 --> 00:02.000\nhi".toList) = Except.ok [wVttRec] ∧
    splitNl (stripWs ("NOTE comment".toList)) = ["NOTE comment".toList] ∧
    (startsWithList (upperChars (stripWs ("NOTE comment".toList))) sSTYLE = true ∨
      startsWithList (upperChars (stripWs ("NOTE comment".toList))) sREGION = true ∨
      startsWithList (upperChars (stripWs ("NOTE comment".toList))) sNOTE = true) ∧
    (([wVttRec] : List Subtitle).map Subtitle.index =
       (List.range' 1 ([wVttRec] : List Subtitle).length).map Int.ofNat ∧
      parseVttBlocks (("NOTE comment".toList) :: []) 0 = parseVttBlocks [] 0) :=
  ⟨by decide, by decide, by decide,
   claim_C8 ("WEBVTT\n\n00:01.000 --> 00:02.000\nhi".toList) [wVttRec] (by decide)
     ("NOTE comment".toList) [] 0 ("NOTE comment".toList) [] (by decide) (by decide)⟩



/-! ### Line-splitting toolbox (for the round-trip claim) -/

theorem splitNl_cons (c : Char) (rest : List Char) :
    splitNl (c :: rest) = if c = '\n' then [] :: splitNl rest
      else match splitNl rest with
           | [] => [[c]]
           | l :: ls => (c :: l) :: ls := rfl

theorem splitNl_ne_nil (x : List Char) : splitNl x ≠ [] := by
  cases x with
  | nil => simp [splitNl]
  | cons c rest =>
    rw [splitNl_cons]
    by_cases hc : c = '\n'
    · rw [if_pos hc]
      simp
    · rw [if_neg hc]
      match splitNl rest with
      | [] => simp
      | l :: ls => simp

theorem splitNl_no_nl (x : List Char) : ∀ l ∈ splitNl x, '\n' ∉ l := by
  induction x with
  | nil =>
    intro l hl
    simp only [splitNl, List.mem_singleton] at hl
    simp [hl]
  | cons c rest ih =>
    intro l hl
    rw [splitNl_cons] at hl
    by_cases hc : c = '\n'
    · rw [if_pos hc] at hl
      rcases List.mem_cons.mp hl with rfl | h
      · simp
      · exact ih l h
    · rw [if_neg hc] at hl
      match hs : splitNl rest with
      | [] => exact absurd hs (splitNl_ne_nil rest)
      | p :: ps =>
        rw [hs] at hl
        rcases List.mem_cons.mp hl with rfl | h
        · intro hmem
          rcases List.mem_cons.mp hmem with h1 | h1
          · exact hc h1.symm
          · exact ih p (by rw [hs]; simp) h1
        · exact ih l (by rw [hs]; simp [h])

theorem joinNl_cons (l : List Char) (ls : List (List Char)) (h : ls ≠ []) :
    joinNl (l :: ls) = l ++ '\n' :: joinNl ls := by
  match ls with
  | l2 :: ls' => rfl

theorem joinNl_splitNl (x : List Char) : joinNl (splitNl x) = x := by
  induction x with
  | nil => rfl
  | cons c rest ih =>
    rw [splitNl_cons]
    by_cases hc : c = '\n'
    · rw [if_pos hc]
      rw [joinNl_cons [] (splitNl rest) (splitNl_ne_nil rest)]
      rw [ih, hc]
      rfl
    · rw [if_neg hc]
      match hs : splitNl rest with
      | [] => exact absurd hs (splitNl_ne_nil rest)
      | p :: ps =>
        rw [hs] at ih
        match ps with
        | [] =>
          show joinNl [c :: p] = c :: rest
          show c :: p = c :: rest
          have hp : p = rest := ih
          rw [hp]
        | q :: qs =>
          rw [joinNl_cons (c :: p) (q :: qs) (by simp)]
          rw [joinNl_cons p (q :: qs) (by simp)] at ih
          show c :: (p ++ '\n' :: joinNl (q :: qs)) = c :: rest
          rw [ih]

theorem splitNl_single (x : List Char) (h : '\n' ∉ x) : splitNl x = [x] := by
  induction x with
  | nil => rfl
  | cons c rest ih =>
    rw [splitNl_cons]
    have hc : ¬ c = '\n' := by
      intro hc
      exact h (by simp [hc])
    rw [if_neg hc]
    rw [ih (fun hm => h (by simp [hm]))]

theorem splitNl_append_nl (x y : List Char) :
    splitNl (x ++ '\n' :: y) = splitNl x ++ splitNl y := by
  induction x with
  | nil =>
    show splitNl ('\n' :: y) = splitNl [] ++ splitNl y
    rw [splitNl_cons, if_pos rfl]
    rfl
  | cons c x' ih =>
    show splitNl (c :: (x' ++ '\n' :: y)) = splitNl (c :: x') ++ splitNl y
    rw [splitNl_cons, splitNl_cons]
    by_cases hc : c = '\n'
    · rw [if_pos hc, if_pos hc, ih]
      rfl
    · rw [if_neg hc, if_neg hc, ih]
      match hs : splitNl x' with
      | [] => exact absurd hs (splitNl_ne_nil x')
      | p :: ps => simp

theorem splitNl_join (ls : List (List Char)) (hne : ls ≠ [])
    (hnl : ∀ l ∈ ls, '\n' ∉ l) : splitNl (joinNl ls) = ls := by
  induction ls with
  | nil => exact absurd rfl hne
  | cons l ls' ih =>
    match ls' with
    | [] =>
      show splitNl (joinNl [l]) = [l]
      show splitNl l = [l]
      exact splitNl_single l (hnl l (by simp))
    | m :: ms =>
      rw [joinNl_cons l (m :: ms) (by simp)]
      rw [splitNl_append_nl]
      rw [splitNl_single l (hnl l (by simp))]
      rw [ih (by simp) (fun a ha => hnl a (by simp [ha]))]
      rfl

theorem splitNl_mem_subset (x : List Char) :
    ∀ l ∈ splitNl x, ∀ c ∈ l, c ∈ x := by
  induction x with
  | nil =>
    intro l hl c hc
    simp only [splitNl, List.mem_singleton] at hl
    subst hl
    simp at hc
  | cons d rest ih =>
    intro l hl c hc
    rw [splitNl_cons] at hl
    by_cases hd : d = '\n'
    · rw [if_pos hd] at hl
      rcases List.mem_cons.mp hl with rfl | h
      · simp at hc
      · exact List.mem_cons_of_mem d (ih l h c hc)
    · rw [if_neg hd] at hl
      match hs : splitNl rest with
      | [] => exact absurd hs (splitNl_ne_nil rest)
      | p :: ps =>
        rw [hs] at hl
        rcases List.mem_cons.mp hl with rfl | h
        · rcases List.mem_cons.mp hc with rfl | h2
          · simp
          · exact List.mem_cons_of_mem d (ih p (by rw [hs]; simp) c h2)
        · exact List.mem_cons_of_mem d (ih l (by rw [hs]; simp [h]) c hc)

theorem getLastD_irrel {α : Type} (l : List α) (h : l ≠ []) (d1 d2 : α) :
    l.getLastD d1 = l.getLastD d2 := by
  rw [List.getLastD_eq_getLast?, List.getLastD_eq_getLast?,
    List.getLast?_eq_getLast l h]
  rfl

theorem getLastD_mem {α : Type} (l : List α) (h : l ≠ []) (d : α) :
    l.getLastD d ∈ l := by
  rw [List.getLastD_eq_getLast?, List.getLast?_eq_getLast l h]
  exact List.getLast_mem h

theorem headD_mem {α : Type} (l : List α) (h : l ≠ []) (d : α) :
    l.headD d ∈ l := by
  match l with
  | a :: t => simp

theorem splitNl_append_nonl (x y : List Char) (hy : '\n' ∉ y) :
    splitNl (x ++ y) = (splitNl x).dropLast ++ [(splitNl x).getLastD [] ++ y] := by
  induction x with
  | nil =>
    show splitNl y = _
    rw [splitNl_single y hy]
    rfl
  | cons c x' ih =>
    show splitNl (c :: (x' ++ y)) = _
    rw [splitNl_cons, splitNl_cons]
    by_cases hc : c = '\n'
    · rw [if_pos hc, if_pos hc, ih]
      rw [List.dropLast_cons_of_ne_nil (splitNl_ne_nil x')]
      rw [List.getLastD_cons]
      rw [getLastD_irrel (splitNl x') (splitNl_ne_nil x') [] []]
      rfl
    · rw [if_neg hc, if_neg hc]
      match hs : splitNl x' with
      | [] => exact absurd hs (splitNl_ne_nil x')
      | p :: ps =>
        rw [hs] at ih
        rw [ih]
        match ps with
        | [] => rfl
        | q :: qs =>
          simp [List.dropLast_cons_of_ne_nil, List.getLastD_cons]

/-! ### Whitespace-stripping toolbox -/

theorem dropWhile_head_not (p : Char → Bool) (l : List Char) (c : Char)
    (h : (l.dropWhile p).head? = some c) : p c = false := by
  induction l with
  | nil => simp [List.dropWhile] at h
  | cons a t ih =>
    rw [List.dropWhile_cons] at h
    by_cases ha : p a = true
    · rw [if_pos ha] at h
      exact ih h
    · rw [if_neg ha] at h
      injection h with h
      subst h
      exact Bool.eq_false_iff.mpr ha

theorem rstrip_append_wsTail (x : List Char) : rstripWs x ++ wsTail x = x := by
  unfold rstripWs wsTail
  rw [← List.reverse_append, List.takeWhile_append_dropWhile, List.reverse_reverse]

theorem rstrip_nil_iff (x : List Char) : rstripWs x = [] ↔ x.all pySpace = true := by
  unfold rstripWs
  rw [List.reverse_eq_nil_iff, List.dropWhile_eq_nil_iff]
  rw [← List.all_reverse]
  exact (List.all_eq_true).symm

theorem wsTail_all_ws (x : List Char) : (wsTail x).all pySpace = true := by
  unfold wsTail
  rw [List.all_reverse, List.all_eq_true]
  exact fun c hc => List.mem_takeWhile_imp hc

theorem rstrip_last_not_ws (x : List Char) (c : Char)
    (h : (rstripWs x).getLast? = some c) : pySpace c = false := by
  unfold rstripWs at h
  rw [List.getLast?_reverse] at h
  exact dropWhile_head_not pySpace x.reverse c h

theorem rstrip_of_last_not_ws (x : List Char)
    (h : ∀ c, x.getLast? = some c → pySpace c = false) : rstripWs x = x := by
  unfold rstripWs
  match hrev : x.reverse with
  | [] =>
    rw [List.reverse_eq_nil_iff] at hrev
    simp [hrev]
  | c :: t =>
    have hc : pySpace c = false := by
      apply h
      rw [← List.head?_reverse, hrev]
      rfl
    rw [List.dropWhile_cons, hc]
    simp only [Bool.false_eq_true, if_false]
    rw [← hrev, List.reverse_reverse]

theorem rstrip_idem (x : List Char) : rstripWs (rstripWs x) = rstripWs x :=
  rstrip_of_last_not_ws _ (rstrip_last_not_ws x)

theorem rstrip_append_ws (x y : List Char) (hy : y.all pySpace = true) :
    rstripWs (x ++ y) = rstripWs x := by
  unfold rstripWs
  rw [List.reverse_append, List.dropWhile_append]
  have hyrev : y.reverse.all pySpace = true := by
    rw [List.all_reverse]
    exact hy
  have : (List.dropWhile pySpace y.reverse).isEmpty = true := by
    rw [List.isEmpty_iff, List.dropWhile_eq_nil_iff]
    intro c hc
    exact List.all_eq_true.mp hyrev c hc
  rw [if_pos this]

theorem head?_rstrip (x : List Char) (h : rstripWs x ≠ []) :
    (rstripWs x).head? = x.head? := by
  conv_rhs => rw [← rstrip_append_wsTail x]
  rw [List.head?_append]
  match hx : (rstripWs x).head? with
  | some c => rfl
  | none =>
    rw [List.head?_eq_none_iff] at hx
    exact absurd hx h

theorem allWS_dropWhile (x : List Char) :
    (x.dropWhile pySpace).all pySpace = x.all pySpace := by
  induction x with
  | nil => rfl
  | cons c t ih =>
    rw [List.dropWhile_cons]
    by_cases hc : pySpace c = true
    · rw [if_pos hc, ih]
      simp [hc]
    · simp [hc]

theorem allWS_rstrip (x : List Char) :
    (rstripWs x).all pySpace = x.all pySpace := by
  conv_rhs => rw [← rstrip_append_wsTail x]
  rw [List.all_append, wsTail_all_ws]
  simp

theorem rstrip_ne_nil_of_line (x : List Char)
    (h : ∃ l ∈ splitNl x, l.all pySpace = false) : (rstripWs x).isEmpty = false := by
  obtain ⟨l, hl, hws⟩ := h
  have : ¬ x.all pySpace = true := by
    intro hall
    have : l.all pySpace = true := by
      rw [List.all_eq_true]
      intro c hc
      exact List.all_eq_true.mp hall c (splitNl_mem_subset x l hl c hc)
    rw [this] at hws
    exact Bool.true_eq_false.mp hws
  rw [Bool.eq_false_iff]
  intro hc
  rw [List.isEmpty_iff] at hc
  exact this ((rstrip_nil_iff x).mp hc)

theorem rstrip_cons (c : Char) (x : List Char) :
    rstripWs (c :: x) = if (rstripWs x).isEmpty then
      (if pySpace c then [] else [c]) else c :: rstripWs x := by
  unfold rstripWs
  rw [show (c :: x).reverse = x.reverse ++ [c] from by simp]
  rw [List.dropWhile_append]
  by_cases he : (List.dropWhile pySpace x.reverse).isEmpty = true
  · rw [if_pos he]
    have he2 : ((List.dropWhile pySpace x.reverse).reverse).isEmpty = true := by
      rw [List.isEmpty_iff] at he ⊢
      simp [he]
    rw [if_pos he2]
    by_cases hc : pySpace c = true
    · simp [List.dropWhile, hc]
    · simp [List.dropWhile, hc]
  · rw [if_neg he]
    have he2 : ¬ ((List.dropWhile pySpace x.reverse).reverse).isEmpty = true := by
      rw [List.isEmpty_iff, List.reverse_eq_nil_iff]
      rw [List.isEmpty_iff] at he
      exact he
    rw [if_neg he2, List.reverse_append]
    rfl

/-! ### Interaction of stripping with line splitting -/

theorem splitNl_lstrip (x : List Char)
    (h : ((splitNl x).headD []).all pySpace = false) :
    splitNl (lstripWs x) =
      lstripWs ((splitNl x).headD []) :: (splitNl x).tail := by
  induction x with
  | nil =>
    simp only [splitNl, List.headD] at h
    simp at h
  | cons c rest ih =>
    rw [splitNl_cons] at h ⊢
    by_cases hc : c = '\n'
    · rw [if_pos hc] at h
      simp at h
    · rw [if_neg hc] at h ⊢
      obtain ⟨p, ps, hs⟩ : ∃ p ps, splitNl rest = p :: ps := by
        cases hsp : splitNl rest with
        | nil => exact absurd hsp (splitNl_ne_nil rest)
        | cons a b => exact ⟨a, b, rfl⟩
      rw [hs] at h ⊢
      dsimp only at h ⊢
      by_cases hws : pySpace c = true
      · have hlr : lstripWs (c :: rest) = lstripWs rest := by
          unfold lstripWs
          rw [List.dropWhile_cons, if_pos hws]
        have hph : p.all pySpace = false := by
          simp only [List.headD_cons, List.all_cons, hws] at h
          simpa using h
        have hmid := ih (by rw [hs]; simpa using hph)
        rw [hs] at hmid
        rw [hlr, hmid]
        simp only [List.headD_cons, List.tail_cons]
        have hcp : lstripWs (c :: p) = lstripWs p := by
          unfold lstripWs
          rw [List.dropWhile_cons, if_pos hws]
        rw [hcp]
      · have hlr : lstripWs (c :: rest) = c :: rest := by
          unfold lstripWs
          rw [List.dropWhile_cons, if_neg hws]
        have hlp : lstripWs (c :: p) = c :: p := by
          unfold lstripWs
          rw [List.dropWhile_cons, if_neg hws]
        rw [hlr, splitNl_cons, if_neg hc, hs]
        dsimp only
        simp only [List.headD_cons, List.tail_cons]
        rw [hlp]

theorem splitNl_rstrip (x : List Char)
    (h : ((splitNl x).getLastD []).all pySpace = false) :
    splitNl (rstripWs x) =
      (splitNl x).dropLast ++ [rstripWs ((splitNl x).getLastD [])] := by
  induction x with
  | nil =>
    simp only [splitNl] at h
    simp at h
  | cons c rest ih =>
    rw [splitNl_cons] at h ⊢
    by_cases hc : c = '\n'
    · rw [if_pos hc] at h ⊢
      rw [List.getLastD_cons] at h ⊢
      have hrest_ne : (rstripWs rest).isEmpty = false := by
        apply rstrip_ne_nil_of_line
        refine ⟨(splitNl rest).getLastD [], getLastD_mem _ (splitNl_ne_nil rest) [], h⟩
      rw [hc, rstrip_cons]
      rw [hrest_ne]
      simp only [Bool.false_eq_true, if_false]
      rw [splitNl_cons, if_pos rfl, ih h]
      rw [List.dropLast_cons_of_ne_nil (splitNl_ne_nil rest)]
      rfl
    · rw [if_neg hc] at h ⊢
      obtain ⟨p, ps, hs⟩ : ∃ p ps, splitNl rest = p :: ps := by
        cases hsp : splitNl rest with
        | nil => exact absurd hsp (splitNl_ne_nil rest)
        | cons a b => exact ⟨a, b, rfl⟩
      rw [hs] at h ⊢
      dsimp only at h ⊢
      cases ps with
      | nil =>
        have hrest : rest = p := by
          have hj := joinNl_splitNl rest
          rw [hs] at hj
          exact hj.symm
        have hnl : '\n' ∉ (c :: rest) := by
          intro hm
          rcases List.mem_cons.mp hm with h1 | h1
          · exact hc h1.symm
          · exact splitNl_no_nl rest p (by rw [hs]; simp) (hrest ▸ h1)
        have hnl2 : '\n' ∉ rstripWs (c :: rest) := by
          intro hm
          apply hnl
          rw [← rstrip_append_wsTail (c :: rest)]
          exact List.mem_append.mpr (Or.inl hm)
        rw [splitNl_single _ hnl2]
        simp only [List.getLastD_cons, List.dropLast_single, List.nil_append]
        rw [hrest]
        rfl
      | cons q qs =>
        have hlast : ((splitNl rest).getLastD []).all pySpace = false := by
          rw [hs]
          simp only [List.getLastD_cons] at h ⊢
          exact h
        have hrest_ne : (rstripWs rest).isEmpty = false := by
          apply rstrip_ne_nil_of_line
          exact ⟨(splitNl rest).getLastD [], getLastD_mem _ (splitNl_ne_nil rest) [], hlast⟩
        rw [rstrip_cons, hrest_ne]
        simp only [Bool.false_eq_true, if_false]
        rw [splitNl_cons, if_neg hc]
        have hihs := ih hlast
        rw [hs] at hihs
        rw [hihs]
        rw [List.dropLast_cons_of_ne_nil (by simp : (q :: qs) ≠ [])]
        simp only [List.getLastD_cons, List.cons_append]
        rw [List.dropLast_cons_of_ne_nil (by simp : (q :: qs) ≠ [])]
        simp only [List.cons_append]

/-! ### Character-class facts -/

theorem digit_not_ws (c : Char) (h : c.isDigit = true) : pySpace c = false := by
  simp only [Char.isDigit, Bool.and_eq_true, decide_eq_true_eq] at h
  have h1 : 48 ≤ c.toNat := h.1
  have h2 : c.toNat ≤ 57 := h.2
  have hc : c = Char.ofNat c.toNat := (Char.ofNat_toNat c).symm
  rw [hc]
  generalize c.toNat = n at h1 h2
  interval_cases n <;> decide

theorem not_ws_ne_nl (c : Char) (h : pySpace c = false) : c ≠ '\n' := by
  intro e
  rw [e] at h
  exact Bool.noConfusion ((by decide : pySpace '\n' = true).symm.trans h)

theorem digit_ne_char (c : Char) (h : c.isDigit = true) (d : Char)
    (hd : d.isDigit = false) : c ≠ d := by
  intro e
  rw [e, hd] at h
  exact Bool.noConfusion h

/-! ### More stripping toolbox -/

theorem lstrip_cons_false (c : Char) (t : List Char) (h : pySpace c = false) :
    lstripWs (c :: t) = c :: t := by
  unfold lstripWs
  rw [List.dropWhile_cons, h]
  simp

theorem rstrip_append_of_ne (x y : List Char) (hy : rstripWs y ≠ []) :
    rstripWs (x ++ y) = x ++ rstripWs y := by
  unfold rstripWs
  rw [List.reverse_append, List.dropWhile_append]
  have he : (List.dropWhile pySpace y.reverse).isEmpty = false := by
    rw [Bool.eq_false_iff]
    intro hc
    rw [List.isEmpty_iff] at hc
    apply hy
    unfold rstripWs
    rw [hc]
    rfl
  rw [he]
  simp only [Bool.false_eq_true, if_false]
  rw [List.reverse_append, List.reverse_reverse]

theorem wsTail_of_all_ws (x : List Char) (h : x.all pySpace = true) :
    wsTail x = x := by
  have h1 := rstrip_append_wsTail x
  rw [(rstrip_nil_iff x).mpr h] at h1
  exact h1

theorem wsTail_append_of_ne (x y : List Char) (hy : rstripWs y ≠ []) :
    wsTail (x ++ y) = wsTail y := by
  have h1 := rstrip_append_wsTail (x ++ y)
  rw [rstrip_append_of_ne x y hy, List.append_assoc] at h1
  have h3 : rstripWs y ++ wsTail (x ++ y) = rstripWs y ++ wsTail y := by
    rw [rstrip_append_wsTail y]
    exact List.append_cancel_left h1
  exact List.append_cancel_left h3

theorem rstrip_concat_false (x : List Char) (c : Char) (h : pySpace c = false) :
    rstripWs (x ++ [c]) = x ++ [c] := by
  apply rstrip_of_last_not_ws
  intro d hd
  rw [List.getLast?_concat] at hd
  injection hd with hd
  subst hd
  exact h

/-! ### Whitespace runs inside a string with no whitespace-only line -/

theorem count_first_split (w : List Char) (h : '\n' ∈ w) :
    ∃ u v, w = u ++ '\n' :: v ∧ '\n' ∉ u := by
  induction w with
  | nil => simp at h
  | cons c t ih =>
    by_cases hc : c = '\n'
    · exact ⟨[], t, by rw [hc]; rfl, by simp⟩
    · have ht : '\n' ∈ t := by
        rcases List.mem_cons.mp h with h1 | h1
        · exact absurd h1.symm hc
        · exact h1
      obtain ⟨u, v, huv, hu⟩ := ih ht
      refine ⟨c :: u, v, by rw [huv]; rfl, ?_⟩
      intro hm
      rcases List.mem_cons.mp hm with h1 | h1
      · exact hc h1.symm
      · exact hu h1

theorem count_two_split (w : List Char) (h : 2 ≤ w.count '\n') :
    ∃ w1 w2 w3, w = w1 ++ '\n' :: (w2 ++ '\n' :: w3) := by
  obtain ⟨u, v, huv, hu⟩ := count_first_split w
    (List.one_le_count_iff.mp (by omega))
  have hv : 1 ≤ v.count '\n' := by
    rw [huv, List.count_append, List.count_cons] at h
    simp only [beq_self_eq_true, if_true] at h
    rw [List.count_eq_zero.mpr hu] at h
    omega
  obtain ⟨w2, w3, hv2⟩ := List.append_of_mem (List.one_le_count_iff.mp hv)
  exact ⟨u, w2, w3, by rw [huv, hv2]⟩

theorem noBlank_of_lines (z : List Char)
    (h : ∀ l ∈ splitNl z, l.all pySpace = false) :
    ∀ u w v, z = u ++ w ++ v → w.all pySpace = true → w.count '\n' ≤ 1 := by
  intro u w v hz hw
  by_contra hc
  have h2 : 2 ≤ w.count '\n' := by omega
  obtain ⟨w1, w2, w3, hw3⟩ := count_two_split w h2
  have hz2 : z = (u ++ w1) ++ '\n' :: (w2 ++ '\n' :: (w3 ++ v)) := by
    rw [hz, hw3]
    simp [List.append_assoc]
  have hsplit : splitNl z =
      splitNl (u ++ w1) ++ (splitNl w2 ++ splitNl (w3 ++ v)) := by
    rw [hz2, splitNl_append_nl, splitNl_append_nl]
  have hmem : (splitNl w2).headD [] ∈ splitNl z := by
    rw [hsplit]
    refine List.mem_append.mpr (Or.inr (List.mem_append.mpr (Or.inl ?_)))
    exact headD_mem _ (splitNl_ne_nil w2) []
  have hws : ((splitNl w2).headD []).all pySpace = true := by
    rw [List.all_eq_true]
    intro c hc2
    have hcw2 : c ∈ w2 :=
      splitNl_mem_subset w2 _ (headD_mem _ (splitNl_ne_nil w2) []) c hc2
    have hcw : c ∈ w := by
      rw [hw3]
      simp [hcw2]
    exact List.all_eq_true.mp hw c hcw
  rw [h _ hmem] at hws
  exact Bool.noConfusion hws

/-! ### Stepping `sbGo` -/

theorem sbGo_nil (curr pend : List Char) :
    sbGo [] curr pend = if 2 ≤ pend.count '\n' then
      [curr ++ sepBefore pend, sepAfter pend] else [curr ++ pend] := rfl

theorem sbGo_cons (c : Char) (xs curr pend : List Char) :
    sbGo (c :: xs) curr pend =
      if pySpace c then sbGo xs curr (pend ++ [c])
      else if 2 ≤ pend.count '\n' then
        (curr ++ sepBefore pend) :: sbGo xs (sepAfter pend ++ [c]) []
      else sbGo xs (curr ++ pend ++ [c]) [] := rfl

theorem sbGo_start (c : Char) (xs : List Char) (h : pySpace c = false) :
    sbGo (c :: xs) [] [] = sbGo xs [c] [] := by
  rw [sbGo_cons, h]
  simp

/-- Running the scanner over a stretch that contains no blank-line separator
neither emits a block nor disturbs the tail: it simply transfers the stretch
into the current block, keeping its trailing whitespace pending. -/
theorem sbGo_consume (rest : List Char) :
    ∀ B curr pend, pend.all pySpace = true →
    (∀ u w v, pend ++ B = u ++ w ++ v → w.all pySpace = true →
      w.count '\n' ≤ 1) →
    sbGo (B ++ rest) curr pend =
      sbGo rest (curr ++ rstripWs (pend ++ B)) (wsTail (pend ++ B)) := by
  intro B
  induction B with
  | nil =>
    intro curr pend hpend hnb
    rw [List.nil_append, List.append_nil, (rstrip_nil_iff pend).mpr hpend,
      wsTail_of_all_ws pend hpend, List.append_nil]
  | cons c B' ih =>
    intro curr pend hpend hnb
    rw [List.cons_append, sbGo_cons]
    by_cases hws : pySpace c = true
    · rw [if_pos hws]
      have h1 := ih curr (pend ++ [c])
        (by rw [List.all_append, hpend, List.all_cons]; simp [hws])
        (by
          intro u w v he hw
          apply hnb u w v _ hw
          rw [← he]
          simp)
      rw [h1]
      simp [List.append_assoc]
    · rw [if_neg hws]
      have hle : pend.count '\n' ≤ 1 :=
        hnb [] pend (c :: B') (by simp) hpend
      rw [if_neg (by omega : ¬ 2 ≤ pend.count '\n')]
      have h1 := ih (curr ++ pend ++ [c]) [] (by decide)
        (by
          intro u w v he hw
          apply hnb (pend ++ c :: u) w v _ hw
          rw [List.nil_append] at he
          rw [he]
          simp)
      rw [h1]
      rw [List.nil_append]
      have hws' : pySpace c = false := Bool.eq_false_iff.mpr hws
      by_cases hB : rstripWs B' = []
      · have hBall : B'.all pySpace = true := (rstrip_nil_iff B').mp hB
        have hr1 : rstripWs (pend ++ c :: B') = pend ++ [c] := by
          rw [show pend ++ c :: B' = (pend ++ [c]) ++ B' from by simp,
            rstrip_append_ws _ _ hBall]
          exact rstrip_concat_false pend c hws'
        have hw1 : wsTail (pend ++ c :: B') = B' := by
          have hcancel := rstrip_append_wsTail (pend ++ c :: B')
          rw [hr1] at hcancel
          have : (pend ++ [c]) ++ wsTail (pend ++ c :: B') =
              (pend ++ [c]) ++ B' := by
            rw [hcancel]; simp
          exact List.append_cancel_left this
        rw [hr1, hw1, hB, wsTail_of_all_ws B' hBall]
        simp
      · have hr1 : rstripWs (pend ++ c :: B') = pend ++ c :: rstripWs B' := by
          rw [show pend ++ c :: B' = (pend ++ [c]) ++ B' from by simp,
            rstrip_append_of_ne _ _ hB]
          simp
        have hw1 : wsTail (pend ++ c :: B') = wsTail B' := by
          rw [show pend ++ c :: B' = (pend ++ [c]) ++ B' from by simp]
          exact wsTail_append_of_ne _ _ hB
        rw [hr1, hw1]
        simp

theorem count_le_one_split (pend : List Char) (hm : '\n' ∈ pend)
    (h : pend.count '\n' ≤ 1) :
    ∃ u v, pend = u ++ '\n' :: v ∧ '\n' ∉ u ∧ '\n' ∉ v := by
  obtain ⟨u, v, huv, hu⟩ := count_first_split pend hm
  refine ⟨u, v, huv, hu, ?_⟩
  intro hv
  rw [huv, List.count_append, List.count_cons] at h
  simp only [beq_self_eq_true, if_true] at h
  have h1 : 1 ≤ v.count '\n' := List.one_le_count_iff.mpr hv
  omega

theorem no_nl_sepBefore (pend : List Char) : '\n' ∉ sepBefore pend := by
  intro hm
  have h1 := List.mem_takeWhile_imp hm
  simp at h1

theorem no_nl_sepAfter (pend : List Char) : '\n' ∉ sepAfter pend := by
  intro hm
  unfold sepAfter at hm
  rw [List.mem_reverse] at hm
  have h1 := List.mem_takeWhile_imp hm
  simp at h1

theorem all_false_right (p : Char → Bool) (a b : List Char)
    (h : b.all p = false) : (a ++ b).all p = false := by
  rw [List.all_append, h, Bool.and_false]

theorem all_false_left (p : Char → Bool) (a b : List Char)
    (h : a.all p = false) : (a ++ b).all p = false := by
  rw [List.all_append, h, Bool.false_and]

theorem all_false_concat (a : List Char) (c : Char) (h : pySpace c = false) :
    (a ++ [c]).all pySpace = false :=
  all_false_right pySpace a [c] (by simp [h])

/-- Extending the current block by a pending whitespace run with at most one
newline and then a non-whitespace character keeps every one of its lines
non-whitespace-only. -/
theorem lines_extend (curr pend : List Char) (c : Char)
    (hcurr : ∀ l ∈ splitNl curr, l.all pySpace = false)
    (hcnt : pend.count '\n' ≤ 1) (hc : pySpace c = false) :
    ∀ l ∈ splitNl (curr ++ (pend ++ [c])), l.all pySpace = false := by
  have hcnl : c ≠ '\n' := not_ws_ne_nl c hc
  by_cases hmem : '\n' ∈ pend
  · obtain ⟨u, v, huv, hu, hv⟩ := count_le_one_split pend hmem hcnt
    have hsp : curr ++ (pend ++ [c]) = (curr ++ u) ++ '\n' :: (v ++ [c]) := by
      rw [huv]
      simp
    rw [hsp, splitNl_append_nl,
      splitNl_append_nonl curr u hu,
      splitNl_single (v ++ [c]) (by
        intro hm
        rcases List.mem_append.mp hm with h1 | h1
        · exact hv h1
        · simp at h1; exact hcnl h1.symm)]
    intro l hl
    rcases List.mem_append.mp hl with h1 | h1
    · rcases List.mem_append.mp h1 with h2 | h2
      · exact hcurr l (List.dropLast_subset _ h2)
      · simp only [List.mem_singleton] at h2
        subst h2
        exact all_false_left pySpace _ u
          (hcurr _ (getLastD_mem _ (splitNl_ne_nil curr) []))
    · simp only [List.mem_singleton] at h1
      subst h1
      exact all_false_concat v c hc
  · rw [splitNl_append_nonl curr (pend ++ [c]) (by
      intro hm
      rcases List.mem_append.mp hm with h1 | h1
      · exact hmem h1
      · simp at h1; exact hcnl h1.symm)]
    intro l hl
    rcases List.mem_append.mp hl with h1 | h1
    · exact hcurr l (List.dropLast_subset _ h1)
    · simp only [List.mem_singleton] at h1
      subst h1
      rw [show (splitNl curr).getLastD [] ++ (pend ++ [c]) =
        ((splitNl curr).getLastD [] ++ pend) ++ [c] from by simp]
      exact all_false_concat _ c hc

/-- Invariant of the blank-line scanner: starting from a current block whose
lines are all non-whitespace-only, with only whitespace pending, on input
whose last character (if any) is not whitespace, every line of every block
it returns is non-whitespace-only. -/
theorem scan_inv : ∀ (s curr pend : List Char),
    (∀ l ∈ splitNl curr, l.all pySpace = false) →
    pend.all pySpace = true →
    (∀ c, s.getLast? = some c → pySpace c = false) →
    (s = [] → pend = []) →
    ∀ b ∈ sbGo s curr pend, ∀ l ∈ splitNl b, l.all pySpace = false := by
  intro s
  induction s with
  | nil =>
    intro curr pend h1 h2 h3 h4
    rw [h4 rfl, sbGo_nil]
    simp only [List.count_nil]
    rw [if_neg (by omega)]
    intro b hb
    simp only [List.append_nil, List.mem_singleton] at hb
    subst hb
    exact h1
  | cons c s' ih =>
    intro curr pend h1 h2 h3 h4
    have hlast : ∀ d, s'.getLast? = some d → pySpace d = false := by
      intro d hd
      apply h3
      rw [show c :: s' = [c] ++ s' from rfl,
        List.getLast?_append_of_ne_nil [c] (by
          intro he
          rw [he] at hd
          exact Option.noConfusion hd)]
      exact hd
    rw [sbGo_cons]
    by_cases hws : pySpace c = true
    · rw [if_pos hws]
      apply ih curr (pend ++ [c]) h1
        (by rw [List.all_append, h2, List.all_cons, hws]; rfl)
        hlast
      intro he
      exfalso
      subst he
      have := h3 c rfl
      rw [hws] at this
      exact Bool.noConfusion this
    · have hws' : pySpace c = false := Bool.eq_false_iff.mpr hws
      rw [if_neg hws]
      have hnext : s' = [] → ([] : List Char) = [] := fun _ => rfl
      have hcurr' : ∀ l ∈ splitNl (sepAfter pend ++ [c]), l.all pySpace = false := by
        rw [splitNl_single _ (by
          intro hm
          rcases List.mem_append.mp hm with hm1 | hm1
          · exact no_nl_sepAfter pend hm1
          · simp at hm1; exact (not_ws_ne_nl c hws') hm1.symm)]
        intro l hl
        simp only [List.mem_singleton] at hl
        subst hl
        exact all_false_concat _ c hws'
      by_cases hcnt : 2 ≤ pend.count '\n'
      · rw [if_pos hcnt]
        intro b hb
        rcases List.mem_cons.mp hb with hb1 | hb1
        · subst hb1
          rw [splitNl_append_nonl curr (sepBefore pend) (no_nl_sepBefore pend)]
          intro l hl
          rcases List.mem_append.mp hl with h5 | h5
          · exact h1 l (List.dropLast_subset _ h5)
          · simp only [List.mem_singleton] at h5
            subst h5
            exact all_false_left pySpace _ _
              (h1 _ (getLastD_mem _ (splitNl_ne_nil curr) []))
        · exact ih (sepAfter pend ++ [c]) [] hcurr' rfl hlast hnext b hb1
      · rw [if_neg hcnt]
        apply ih (curr ++ pend ++ [c]) [] _ rfl hlast hnext
        rw [List.append_assoc]
        exact lines_extend curr pend c h1 (by omega) hws'

/-- Every block `re.split(r'\n\s*\n', ...)` produces on a stripped, non-empty
string has only non-whitespace-only lines. -/
theorem splitBlank_strip_lines (x : List Char) (hne : stripWs x ≠ []) :
    ∀ b ∈ splitBlankRe (stripWs x), ∀ l ∈ splitNl b, l.all pySpace = false := by
  have hlast : ∀ d, (stripWs x).getLast? = some d → pySpace d = false := by
    intro d hd
    exact rstrip_last_not_ws (lstripWs x) d hd
  obtain ⟨c0, s', hs⟩ : ∃ c0 s', stripWs x = c0 :: s' := by
    cases hsx : stripWs x with
    | nil => exact absurd hsx hne
    | cons a b => exact ⟨a, b, rfl⟩
  have hc0 : pySpace c0 = false := by
    have hh : (stripWs x).head? = (lstripWs x).head? := head?_rstrip (lstripWs x) hne
    rw [hs] at hh
    exact dropWhile_head_not pySpace x c0 hh.symm
  unfold splitBlankRe
  rw [hs, sbGo_start c0 s' hc0]
  apply scan_inv s' [c0] []
  · rw [splitNl_single [c0] (by
      intro hm
      simp at hm
      exact (not_ws_ne_nl c0 hc0) hm.symm)]
    intro l hl
    simp only [List.mem_singleton] at hl
    subst hl
    simp [hc0]
  · rfl
  · intro d hd
    apply hlast
    rw [hs, show c0 :: s' = [c0] ++ s' from rfl,
      List.getLast?_append_of_ne_nil [c0] (by
        intro he
        rw [he] at hd
        exact Option.noConfusion hd)]
    exact hd
  · intro _
    rfl

/-! ### Structure of a matched timestamp group -/

theorem takeTimestamp_group (l p r : List Char)
    (h : takeTimestamp l = some (p, r)) :
    l = p ++ r ∧ takeTimestamp p = some (p, []) ∧
    (∀ r2, takeTimestamp (p ++ r2) = some (p, r2)) ∧
    (∀ c ∈ p, c.isDigit = true ∨ c = ':' ∨ c = ',') ∧
    (∃ d t, p = d :: t ∧ d.isDigit = true) ∧
    (∃ t e, p = t ++ [e] ∧ e.isDigit = true) := by
  match l, h with
  | [], h => exact Option.noConfusion h
  | [a], h => exact Option.noConfusion h
  | [a,b], h => exact Option.noConfusion h
  | [a,b,c], h => exact Option.noConfusion h
  | [a,b,c,d], h => exact Option.noConfusion h
  | [a,b,c,d,e], h => exact Option.noConfusion h
  | [a,b,c,d,e,f], h => exact Option.noConfusion h
  | [a,b,c,d,e,f,g], h => exact Option.noConfusion h
  | [a,b,c,d,e,f,g,h2], h => exact Option.noConfusion h
  | [a,b,c,d,e,f,g,h2,i], h => exact Option.noConfusion h
  | [a,b,c,d,e,f,g,h2,i,j], h => exact Option.noConfusion h
  | [a,b,c,d,e,f,g,h2,i,j,k], h => exact Option.noConfusion h
  | a :: b :: c :: d :: e :: f :: g :: h2 :: i :: j :: k :: m :: rest, h => ?_
  dsimp only [takeTimestamp] at h
  split at h
  · rename_i hcond
    injection h with h
    rw [Prod.mk.injEq] at h
    obtain ⟨hp, hr⟩ := h
    subst hp
    subst hr
    have hcond2 := hcond
    simp only [Bool.and_eq_true, decide_eq_true_eq] at hcond
    obtain ⟨⟨⟨⟨⟨⟨⟨⟨⟨⟨⟨ha, hb⟩, hc⟩, hd⟩, he⟩, hf⟩, hg⟩, hh⟩, hi⟩, hj⟩, hk⟩, hm⟩ :=
      hcond
    refine ⟨rfl, ?_, ?_, ?_,
      ⟨a, [b,c,d,e,f,g,h2,i,j,k,m], rfl, ha⟩,
      ⟨[a,b,c,d,e,f,g,h2,i,j,k], m, by simp, hm⟩⟩
    · dsimp only [takeTimestamp]
      rw [if_pos hcond2]
    · intro r2
      simp only [List.cons_append, List.nil_append]
      dsimp only [takeTimestamp]
      rw [if_pos hcond2]
    · intro cc hcc
      simp only [List.mem_cons, List.not_mem_nil, or_false] at hcc
      rcases hcc with rfl|rfl|rfl|rfl|rfl|rfl|rfl|rfl|rfl|rfl|rfl|rfl
      exacts [Or.inl ha, Or.inl hb, Or.inr (Or.inl hc), Or.inl hd, Or.inl he,
        Or.inr (Or.inl hf), Or.inl hg, Or.inl hh, Or.inr (Or.inr hi),
        Or.inl hj, Or.inl hk, Or.inl hm]
  · exact Option.noConfusion h

theorem tsChar_not_ws (c : Char)
    (h : c.isDigit = true ∨ c = ':' ∨ c = ',') : pySpace c = false := by
  rcases h with h | h | h
  · exact digit_not_ws c h
  · subst h; decide
  · subst h; decide

/-! ### The last character of a joined text -/

theorem joinNl_getLast : ∀ (ls : List (List Char)), ls ≠ [] →
    ls.getLastD [] ≠ [] →
    joinNl ls ≠ [] ∧ (joinNl ls).getLast? = (ls.getLastD []).getLast? := by
  intro ls
  induction ls with
  | nil => intro h; exact absurd rfl h
  | cons l ls' ih =>
    intro _ hlast
    cases ls' with
    | nil => exact ⟨hlast, rfl⟩
    | cons m ms =>
      have hl2 : (m :: ms).getLastD [] ≠ [] := by
        have he : (l :: m :: ms).getLastD [] = (m :: ms).getLastD [] := by
          rw [List.getLastD_cons]
          exact getLastD_irrel _ (by simp) l []
        rw [he] at hlast
        exact hlast
      obtain ⟨hne, hgl⟩ := ih (by simp) hl2
      have hj : joinNl (l :: m :: ms) = l ++ '\n' :: joinNl (m :: ms) := rfl
      constructor
      · rw [hj]
        exact List.append_ne_nil_of_right_ne_nil l (by simp)
      · rw [hj, List.getLast?_append_of_ne_nil l (by simp),
          show ('\n' :: joinNl (m :: ms)) = ['\n'] ++ joinNl (m :: ms) from rfl,
          List.getLast?_append_of_ne_nil ['\n'] hne, hgl,
          show (l :: m :: ms).getLastD [] = (m :: ms).getLastD [] from by
            rw [List.getLastD_cons]
            exact getLastD_irrel _ (by simp) l []]

/-! ### Lines of a stripped block -/

theorem strip_lines_props (b : List Char)
    (hb : ∀ l ∈ splitNl b, l.all pySpace = false) :
    (∀ l ∈ splitNl (stripWs b), l.all pySpace = false) ∧
    rstripWs ((splitNl (stripWs b)).getLastD []) =
      (splitNl (stripWs b)).getLastD [] := by
  have hL := splitNl_lstrip b (hb _ (headD_mem _ (splitNl_ne_nil b) []))
  have hmid : ∀ l ∈ splitNl (lstripWs b), l.all pySpace = false := by
    intro l hl
    rw [hL] at hl
    rcases List.mem_cons.mp hl with h1 | h1
    · subst h1
      unfold lstripWs
      rw [allWS_dropWhile]
      exact hb _ (headD_mem _ (splitNl_ne_nil b) [])
    · exact hb l (List.mem_of_mem_tail h1)
  have hR := splitNl_rstrip (lstripWs b)
    (hmid _ (getLastD_mem _ (splitNl_ne_nil _) []))
  constructor
  · intro l hl
    unfold stripWs at hl
    rw [hR] at hl
    rcases List.mem_append.mp hl with h1 | h1
    · exact hmid l (List.dropLast_subset _ h1)
    · simp only [List.mem_singleton] at h1
      subst h1
      rw [allWS_rstrip]
      exact hmid _ (getLastD_mem _ (splitNl_ne_nil _) [])
  · unfold stripWs
    rw [hR, List.getLastD_eq_getLast?, List.getLast?_concat, Option.getD_some]
    exact rstrip_idem _

/-! ### Well-formedness of every parsed SRT record -/

theorem srtBlockRecord_WF (b : List Char) (r : Subtitle)
    (hb : ∀ l ∈ splitNl b, l.all pySpace = false)
    (h : srtBlockRecord b = some r) : WFsub r := by
  obtain ⟨hstrip, hlastline⟩ := strip_lines_props b hb
  unfold srtBlockRecord at h
  obtain ⟨l0, l1, l2, rest, hlines⟩ : ∃ l0 l1 l2 rest,
      splitNl (stripWs b) = l0 :: l1 :: l2 :: rest := by
    rcases hq : splitNl (stripWs b) with _ | ⟨a0, _ | ⟨a1, _ | ⟨a2, t⟩⟩⟩
    · rw [hq] at h; exact Option.noConfusion h
    · rw [hq] at h; exact Option.noConfusion h
    · rw [hq] at h; exact Option.noConfusion h
    · exact ⟨a0, a1, a2, t, rfl⟩
  rw [hlines] at h
  dsimp only at h
  rcases hidx : pyInt (stripWs l0) with _ | idx
  · rw [hidx] at h; exact Option.noConfusion h
  rw [hidx] at h
  dsimp only at h
  rcases hmt : matchSrtTimes (stripWs l1) with _ | ⟨s, e⟩
  · rw [hmt] at h; exact Option.noConfusion h
  rw [hmt] at h
  dsimp only at h
  injection h with h
  subst h
  have hts : takeTimestamp s = some (s, []) ∧ takeTimestamp e = some (e, []) := by
    unfold matchSrtTimes at hmt
    rcases htt : takeTimestamp (stripWs l1) with _ | ⟨p1, r1⟩
    · rw [htt] at hmt; exact Option.noConfusion hmt
    rw [htt] at hmt
    dsimp only at hmt
    split at hmt
    · rcases heq : takeTimestamp (List.dropWhile pySpace _) with _ | ⟨e1, r2⟩
      · rw [heq] at hmt; exact Option.noConfusion hmt
      rw [heq] at hmt
      dsimp only at hmt
      injection hmt with hmt
      rw [Prod.mk.injEq] at hmt
      obtain ⟨hp1, he1⟩ := hmt
      subst hp1
      subst he1
      exact ⟨(takeTimestamp_group _ _ _ htt).2.1,
        (takeTimestamp_group _ _ _ heq).2.1⟩
    · exact Option.noConfusion hmt
  have hmemtext : ∀ l ∈ l2 :: rest, l ∈ splitNl (stripWs b) := by
    intro l hl
    rw [hlines]
    exact List.mem_cons_of_mem _ (List.mem_cons_of_mem _ hl)
  have hnl : ∀ l ∈ l2 :: rest, '\n' ∉ l :=
    fun l hl => splitNl_no_nl (stripWs b) l (hmemtext l hl)
  have hsplitText : splitNl (joinNl (l2 :: rest)) = l2 :: rest :=
    splitNl_join (l2 :: rest) (by simp) hnl
  have hK : (splitNl (stripWs b)).getLastD [] = (l2 :: rest).getLastD [] := by
    rw [hlines, List.getLastD_cons, List.getLastD_cons,
      getLastD_irrel (l2 :: rest) (by simp) l1 []]
  have hKfalse : ((l2 :: rest).getLastD []).all pySpace = false := by
    rw [← hK]
    exact hstrip _ (getLastD_mem _ (splitNl_ne_nil _) [])
  have hKne : (l2 :: rest).getLastD [] ≠ [] := by
    intro he
    rw [he] at hKfalse
    simp at hKfalse
  have hKstrip : rstripWs ((l2 :: rest).getLastD []) = (l2 :: rest).getLastD [] := by
    rw [← hK]
    exact hlastline
  obtain ⟨hjne, hjlast⟩ := joinNl_getLast (l2 :: rest) (by simp) hKne
  refine ⟨hts.1, hts.2, ?_, ?_⟩
  · rw [hsplitText]
    intro l hl
    exact hstrip l (hmemtext l hl)
  · apply rstrip_of_last_not_ws
    intro cc hcc
    rw [hjlast] at hcc
    rw [← hKstrip] at hcc
    exact rstrip_last_not_ws _ cc hcc

theorem parse_srt_WF (content : List Char) (r : Subtitle)
    (h : r ∈ parse_srt content) : WFsub r := by
  unfold parse_srt at h
  obtain ⟨b, hbmem, hbrec⟩ := List.mem_filterMap.mp h
  by_cases hs : stripWs (dropBom content) = []
  · rw [hs] at hbmem
    have hb : b = [] := by
      have he : splitBlankRe [] = [[]] := rfl
      rw [he] at hbmem
      simp at hbmem
      exact hbmem
    subst hb
    exact Option.noConfusion hbrec
  · exact srtBlockRecord_WF b r
      (splitBlank_strip_lines (dropBom content) hs b hbmem) hbrec

/-! ### Facts about the characters of a written SRT block -/

theorem natToChars_head (n : Nat) :
    ∃ d t, natToChars n = d :: t ∧ d.isDigit = true := by
  rcases hq : natToChars n with _ | ⟨d, t⟩
  · exact absurd hq (natToChars_ne_nil n)
  · exact ⟨d, t, rfl, natToChars_digits n d (by rw [hq]; simp)⟩

theorem digit_mem_not_nl (x : List Char) (hx : ∀ c ∈ x, c.isDigit = true) :
    '\n' ∉ x := by
  intro hm
  have h1 := digit_not_ws '\n' (hx '\n' hm)
  rw [(by decide : pySpace '\n' = true)] at h1
  exact Bool.noConfusion h1

theorem strip_id (x : List Char)
    (hh : ∀ c, x.head? = some c → pySpace c = false)
    (hl : ∀ c, x.getLast? = some c → pySpace c = false) : stripWs x = x := by
  unfold stripWs
  have hlx : lstripWs x = x := by
    cases x with
    | nil => rfl
    | cons c t => exact lstrip_cons_false c t (hh c rfl)
  rw [hlx]
  exact rstrip_of_last_not_ws x hl

theorem digits_strip_id (x : List Char) (hx : ∀ c ∈ x, c.isDigit = true) :
    stripWs x = x := by
  apply strip_id
  · intro c hc
    exact digit_not_ws c (hx c (List.mem_of_mem_head? hc))
  · intro c hc
    exact digit_not_ws c (hx c (List.mem_of_mem_getLast? hc))

theorem timeline_no_nl (sub : Subtitle)
    (h1 : takeTimestamp sub.start = some (sub.start, []))
    (h2 : takeTimestamp sub.«end» = some (sub.«end», [])) :
    '\n' ∉ srtTimeLine sub := by
  intro hm
  unfold srtTimeLine at hm
  rcases List.mem_append.mp hm with hs | hrest
  · have hw := tsChar_not_ws '\n' ((takeTimestamp_group _ _ _ h1).2.2.2.1 '\n' hs)
    rw [(by decide : pySpace '\n' = true)] at hw
    exact Bool.noConfusion hw
  · simp only [List.mem_cons] at hrest
    rcases hrest with he|he|he|he|he|hend
    · exact absurd he (by decide)
    · exact absurd he (by decide)
    · exact absurd he (by decide)
    · exact absurd he (by decide)
    · exact absurd he (by decide)
    · have hw := tsChar_not_ws '\n'
        ((takeTimestamp_group _ _ _ h2).2.2.2.1 '\n' hend)
      rw [(by decide : pySpace '\n' = true)] at hw
      exact Bool.noConfusion hw

theorem timeline_all_false (sub : Subtitle)
    (h1 : takeTimestamp sub.start = some (sub.start, [])) :
    (srtTimeLine sub).all pySpace = false := by
  obtain ⟨d, t, hdt, hd⟩ := (takeTimestamp_group _ _ _ h1).2.2.2.2.1
  unfold srtTimeLine
  rw [hdt, List.cons_append, List.all_cons, digit_not_ws d hd, Bool.false_and]

theorem text_ne_nil (sub : Subtitle) (h : WFsub sub) : sub.text ≠ [] := by
  intro he
  have h1 := h.2.2.1 [] (by rw [he]; exact List.mem_singleton.mpr rfl)
  simp at h1

theorem text_last (sub : Subtitle) (h : WFsub sub) :
    ∃ c, sub.text.getLast? = some c ∧ pySpace c = false := by
  have hne := text_ne_nil sub h
  obtain ⟨c, hc⟩ : ∃ c, sub.text.getLast? = some c := by
    cases hq : sub.text.getLast? with
    | none => exact absurd (List.getLast?_eq_none_iff.mp hq) hne
    | some c => exact ⟨c, rfl⟩
  refine ⟨c, hc, ?_⟩
  apply rstrip_last_not_ws sub.text
  rw [h.2.2.2]
  exact hc

theorem srtBlock_last (i : Nat) (sub : Subtitle) (h : WFsub sub) :
    ∃ c, (srtBlockChars i sub).getLast? = some c ∧ pySpace c = false := by
  obtain ⟨c, hc, hcf⟩ := text_last sub h
  have htne : sub.text ≠ [] := text_ne_nil sub h
  refine ⟨c, ?_, hcf⟩
  show ((natToChars i ++ '\n' :: srtTimeLine sub) ++ '\n' :: sub.text).getLast? =
    some c
  rw [List.getLast?_append_of_ne_nil _ (by simp),
    show ('\n' :: sub.text) = ['\n'] ++ sub.text from rfl,
    List.getLast?_append_of_ne_nil _ htne]
  exact hc

theorem srtBlock_lines (i : Nat) (sub : Subtitle) (h : WFsub sub) :
    splitNl (srtBlockChars i sub) =
      natToChars i :: srtTimeLine sub :: splitNl sub.text := by
  show splitNl ((natToChars i ++ '\n' :: srtTimeLine sub) ++ '\n' :: sub.text) = _
  rw [splitNl_append_nl, splitNl_append_nl,
    splitNl_single _ (digit_mem_not_nl _ (natToChars_digits i)),
    splitNl_single _ (timeline_no_nl sub h.1 h.2.1)]
  rfl

theorem srtBlock_lines_false (i : Nat) (sub : Subtitle) (h : WFsub sub) :
    ∀ l ∈ splitNl (srtBlockChars i sub), l.all pySpace = false := by
  rw [srtBlock_lines i sub h]
  intro l hl
  rcases List.mem_cons.mp hl with rfl | hl
  · obtain ⟨d, t, hq, hd⟩ := natToChars_head i
    rw [hq, List.all_cons, digit_not_ws d hd, Bool.false_and]
  rcases List.mem_cons.mp hl with rfl | hl
  · exact timeline_all_false sub h.1
  · exact h.2.2.1 l hl

theorem srtBlock_strip (i : Nat) (sub : Subtitle) (h : WFsub sub) :
    stripWs (srtBlockChars i sub) = srtBlockChars i sub := by
  obtain ⟨c, hc, hcf⟩ := srtBlock_last i sub h
  apply strip_id
  · intro d hd
    obtain ⟨d0, t0, hq, hd0⟩ := natToChars_head i
    rw [show srtBlockChars i sub =
      (natToChars i ++ '\n' :: srtTimeLine sub) ++ '\n' :: sub.text from rfl,
      hq, List.cons_append, List.cons_append, List.head?_cons] at hd
    injection hd with hd
    subst hd
    exact digit_not_ws d0 hd0
  · intro d hd
    rw [hc] at hd
    injection hd with hd
    subst hd
    exact hcf

theorem srtBlock_rstrip (i : Nat) (sub : Subtitle) (h : WFsub sub) :
    rstripWs (srtBlockChars i sub) = srtBlockChars i sub ∧
    wsTail (srtBlockChars i sub) = [] := by
  obtain ⟨c, hc, hcf⟩ := srtBlock_last i sub h
  have hr : rstripWs (srtBlockChars i sub) = srtBlockChars i sub := by
    apply rstrip_of_last_not_ws
    intro d hd
    rw [hc] at hd
    injection hd with hd
    subst hd
    exact hcf
  refine ⟨hr, ?_⟩
  have h1 := rstrip_append_wsTail (srtBlockChars i sub)
  rw [hr] at h1
  have h2 : srtBlockChars i sub ++ wsTail (srtBlockChars i sub) =
      srtBlockChars i sub ++ [] := by rw [h1]; simp
  exact List.append_cancel_left h2

/-! ### The body written by `write_srt` -/

theorem writeSrtGo_body : ∀ (subs : List Subtitle) (k : Nat), subs ≠ [] →
    writeSrtGo k subs = writeBody k subs ++ ['\n', '\n'] := by
  intro subs
  induction subs with
  | nil => intro k h; exact absurd rfl h
  | cons sub rest ih =>
    intro k _
    cases rest with
    | nil => rfl
    | cons s2 rest' =>
      show srtBlockChars k sub ++ '\n' :: '\n' :: writeSrtGo (k+1) (s2 :: rest') = _
      rw [ih (k+1) (by simp)]
      show _ = (srtBlockChars k sub ++
        '\n' :: '\n' :: writeBody (k+1) (s2 :: rest')) ++ ['\n', '\n']
      simp [List.append_assoc]

theorem writeBody_head (sub : Subtitle) (rest : List Subtitle) (k : Nat) :
    ∃ d t, writeBody k (sub :: rest) = d :: t ∧ d.isDigit = true := by
  obtain ⟨d, t0, hq, hd⟩ := natToChars_head k
  cases rest with
  | nil =>
    refine ⟨d, (t0 ++ '\n' :: srtTimeLine sub) ++ '\n' :: sub.text, ?_, hd⟩
    show (natToChars k ++ '\n' :: srtTimeLine sub) ++ '\n' :: sub.text = _
    rw [hq, List.cons_append, List.cons_append]
  | cons s2 rest' =>
    refine ⟨d, ((t0 ++ '\n' :: srtTimeLine sub) ++ '\n' :: sub.text) ++
      '\n' :: '\n' :: writeBody (k+1) (s2 :: rest'), ?_, hd⟩
    show ((natToChars k ++ '\n' :: srtTimeLine sub) ++ '\n' :: sub.text) ++
      '\n' :: '\n' :: writeBody (k+1) (s2 :: rest') = _
    rw [hq, List.cons_append, List.cons_append, List.cons_append]

theorem writeBody_last : ∀ (rest : List Subtitle) (sub : Subtitle) (k : Nat),
    WFsub sub → (∀ s ∈ rest, WFsub s) →
    ∃ c, (writeBody k (sub :: rest)).getLast? = some c ∧ pySpace c = false := by
  intro rest
  induction rest with
  | nil =>
    intro sub k hsub _
    obtain ⟨c, hc, hcf⟩ := srtBlock_last k sub hsub
    exact ⟨c, hc, hcf⟩
  | cons s2 rest' ih =>
    intro sub k hsub hrest
    obtain ⟨c, hc, hcf⟩ := ih s2 (k+1) (hrest s2 (by simp))
      (fun s hs => hrest s (by simp [hs]))
    refine ⟨c, ?_, hcf⟩
    show (srtBlockChars k sub ++
      '\n' :: '\n' :: writeBody (k+1) (s2 :: rest')).getLast? = some c
    rw [List.getLast?_append_of_ne_nil _ (by simp),
      show ('\n' :: '\n' :: writeBody (k+1) (s2 :: rest')) =
        ['\n', '\n'] ++ writeBody (k+1) (s2 :: rest') from rfl,
      List.getLast?_append_of_ne_nil _ (by
        intro he
        rw [he] at hc
        exact Option.noConfusion hc)]
    exact hc

/-- Scanning the body written by `write_srt` recovers exactly the written
blocks. -/
theorem sbGo_writeBody : ∀ (rest : List Subtitle) (sub : Subtitle) (k : Nat)
    (curr : List Char), WFsub sub → (∀ s ∈ rest, WFsub s) →
    sbGo (writeBody k (sub :: rest)) curr [] =
      (curr ++ srtBlockChars k sub) :: srtBlocks (k+1) rest := by
  intro rest
  induction rest with
  | nil =>
    intro sub k curr hsub _
    obtain ⟨hrB, hwB⟩ := srtBlock_rstrip k sub hsub
    have hcons := sbGo_consume [] (srtBlockChars k sub) curr []
      rfl
      (by
        intro u w v he hw
        rw [List.nil_append] at he
        exact noBlank_of_lines _ (srtBlock_lines_false k sub hsub) u w v he hw)
    rw [List.append_nil, List.nil_append] at hcons
    show sbGo (srtBlockChars k sub) curr [] = _
    rw [hcons, hrB, hwB, sbGo_nil]
    simp only [List.count_nil]
    rw [if_neg (by omega)]
    simp only [List.append_nil]
    rfl
  | cons s2 rest' ih =>
    intro sub k curr hsub hrest
    have hs2 : WFsub s2 := hrest s2 (by simp)
    have hrest' : ∀ s ∈ rest', WFsub s := fun s hs => hrest s (by simp [hs])
    obtain ⟨hrB, hwB⟩ := srtBlock_rstrip k sub hsub
    have hcons := sbGo_consume ('\n' :: '\n' :: writeBody (k+1) (s2 :: rest'))
      (srtBlockChars k sub) curr []
      rfl
      (by
        intro u w v he hw
        rw [List.nil_append] at he
        exact noBlank_of_lines _ (srtBlock_lines_false k sub hsub) u w v he hw)
    rw [List.nil_append] at hcons
    show sbGo (srtBlockChars k sub ++
      '\n' :: '\n' :: writeBody (k+1) (s2 :: rest')) curr [] = _
    rw [hcons, hrB, hwB]
    rw [sbGo_cons, if_pos (by decide), sbGo_cons, if_pos (by decide)]
    simp only [List.nil_append, List.singleton_append]
    obtain ⟨d, t2, hwb, hd⟩ := writeBody_head s2 rest' (k+1)
    rw [hwb, sbGo_cons,
      if_neg (by rw [digit_not_ws d hd]; exact Bool.noConfusion),
      if_pos (by decide : 2 ≤ List.count '\n' ['\n', '\n'])]
    rw [show sepBefore ['\n', '\n'] = [] from rfl,
      show sepAfter ['\n', '\n'] = [] from rfl]
    simp only [List.append_nil, List.nil_append]
    have hstep : sbGo (d :: t2) [] [] = sbGo t2 [d] [] :=
      sbGo_start d t2 (digit_not_ws d hd)
    rw [← hstep, ← hwb, ih s2 (k+1) [] hs2 hrest']
    simp only [List.nil_append]
    rfl

theorem splitBlank_writeBody (subs : List Subtitle) (k : Nat)
    (h : ∀ s ∈ subs, WFsub s) (hne : subs ≠ []) :
    splitBlankRe (writeBody k subs) = srtBlocks k subs := by
  cases subs with
  | nil => exact absurd rfl hne
  | cons sub rest =>
    unfold splitBlankRe
    rw [sbGo_writeBody rest sub k [] (h sub (by simp))
      (fun s hs => h s (by simp [hs]))]
    simp only [List.nil_append]
    rfl

/-! ### Reparsing the written blocks -/

theorem parseUDigitsAux_all (l : List Char) (hl : ∀ c ∈ l, c.isDigit = true) :
    ∀ acc, parseUDigitsAux l acc =
      some (l.foldl (fun a c => a * 10 + (c.toNat - 48)) acc) := by
  induction l with
  | nil => intro acc; rfl
  | cons c t ih =>
    intro acc
    have hc : c.isDigit = true := hl c (by simp)
    have hstep : parseUDigitsAux (c :: t) acc =
        parseUDigitsAux t (acc * 10 + (c.toNat - 48)) := by
      rw [parseUDigitsAux.eq_def]
      dsimp only
      rw [if_pos hc]
    rw [hstep, ih (fun d hd => hl d (by simp [hd])) _]
    rfl

theorem pyInt_natToChars (n : Nat) : pyInt (natToChars n) = some (Int.ofNat n) := by
  obtain ⟨d, t, hq, hd⟩ := natToChars_head n
  rw [hq]
  have h1 : pyInt (d :: t) = (parseUDigits (d :: t)).map Int.ofNat := by
    simp [pyInt, digit_ne_char d hd '+' (by decide),
      digit_ne_char d hd '-' (by decide)]
  have h2 : parseUDigits (d :: t) = parseUDigitsAux t (d.toNat - 48) := by
    simp [parseUDigits, hd]
  rw [h1, h2,
    parseUDigitsAux_all t (fun c hc => natToChars_digits n c (by rw [hq]; simp [hc])) _]
  have hv := digitsVal_natToChars n
  rw [hq] at hv
  unfold digitsVal at hv
  rw [List.foldl_cons] at hv
  simp only [Nat.zero_mul, Nat.zero_add] at hv
  rw [hv]
  rfl

theorem timeline_strip_id (sub : Subtitle) (h : WFsub sub) :
    stripWs (srtTimeLine sub) = srtTimeLine sub := by
  obtain ⟨d, t, hdt, hd⟩ := (takeTimestamp_group _ _ _ h.1).2.2.2.2.1
  obtain ⟨t2, e, het, he⟩ := (takeTimestamp_group _ _ _ h.2.1).2.2.2.2.2
  apply strip_id
  · intro c hc
    unfold srtTimeLine at hc
    rw [hdt, List.cons_append, List.head?_cons] at hc
    injection hc with hc
    subst hc
    exact digit_not_ws d hd
  · intro c hc
    unfold srtTimeLine at hc
    rw [het,
      List.getLast?_append_of_ne_nil _ (by simp),
      show (' ' :: '-' :: '-' :: '>' :: ' ' :: (t2 ++ [e])) =
        (' ' :: '-' :: '-' :: '>' :: ' ' :: t2) ++ [e] from by simp,
      List.getLast?_concat] at hc
    injection hc with hc
    subst hc
    exact digit_not_ws e he

theorem matchSrtTimes_timeline (sub : Subtitle)
    (h1 : takeTimestamp sub.start = some (sub.start, []))
    (h2 : takeTimestamp sub.«end» = some (sub.«end», [])) :
    matchSrtTimes (srtTimeLine sub) = some (sub.start, sub.«end») := by
  unfold matchSrtTimes srtTimeLine
  rw [(takeTimestamp_group _ _ _ h1).2.2.1
    (' ' :: '-' :: '-' :: '>' :: ' ' :: sub.«end»)]
  show (match takeTimestamp (List.dropWhile pySpace sub.«end») with
    | some (e1, _) => some (sub.start, e1)
    | none => none) = some (sub.start, sub.«end»)
  obtain ⟨d, t, hdt, hd⟩ := (takeTimestamp_group _ _ _ h2).2.2.2.2.1
  have hdrop : List.dropWhile pySpace sub.«end» = sub.«end» := by
    rw [hdt, List.dropWhile_cons, digit_not_ws d hd]
    simp
  rw [hdrop, h2]

theorem srtBlock_reparse (i : Nat) (sub : Subtitle) (h : WFsub sub) :
    srtBlockRecord (srtBlockChars i sub) = some (Subtitle.mk (Int.ofNat i)
      sub.start sub.«end» sub.text ("Default".toList) [] 0 0 0 []) := by
  unfold srtBlockRecord
  rw [srtBlock_strip i sub h, srtBlock_lines i sub h]
  obtain ⟨t0, ts, hts⟩ : ∃ t0 ts, splitNl sub.text = t0 :: ts := by
    rcases hq : splitNl sub.text with _ | ⟨t0, ts⟩
    · exact absurd hq (splitNl_ne_nil sub.text)
    · exact ⟨t0, ts, rfl⟩
  rw [hts]
  dsimp only
  rw [digits_strip_id (natToChars i) (natToChars_digits i), pyInt_natToChars i]
  dsimp only
  rw [timeline_strip_id sub h, matchSrtTimes_timeline sub h.1 h.2.1]
  dsimp only
  rw [← hts, joinNl_splitNl]

theorem reparse_triples (subs : List Subtitle) : ∀ (k : Nat),
    (∀ s ∈ subs, WFsub s) →
    ((srtBlocks k subs).filterMap srtBlockRecord).map
        (fun r => (r.start, r.«end», r.text)) =
      subs.map (fun r => (r.start, r.«end», r.text)) := by
  induction subs with
  | nil => intro k _; rfl
  | cons sub rest ih =>
    intro k h
    show ((srtBlockChars k sub :: srtBlocks (k+1) rest).filterMap
      srtBlockRecord).map _ = _
    rw [List.filterMap_cons, srtBlock_reparse k sub (h sub (by simp))]
    dsimp only
    rw [List.map_cons, ih (k+1) (fun s hs => h s (by simp [hs]))]
    rfl

theorem reparse_indices (subs : List Subtitle) : ∀ (k : Nat),
    (∀ s ∈ subs, WFsub s) →
    ((srtBlocks k subs).filterMap srtBlockRecord).map Subtitle.index =
      (List.range' k subs.length).map Int.ofNat := by
  induction subs with
  | nil => intro k _; rfl
  | cons sub rest ih =>
    intro k h
    show ((srtBlockChars k sub :: srtBlocks (k+1) rest).filterMap
      srtBlockRecord).map _ = _
    rw [List.filterMap_cons, srtBlock_reparse k sub (h sub (by simp))]
    dsimp only
    rw [List.map_cons, ih (k+1) (fun s hs => h s (by simp [hs]))]
    show _ = (List.range' k (rest.length + 1)).map Int.ofNat
    rw [List.range'_succ, List.map_cons]

theorem strip_write_srt (subs : List Subtitle) (h : ∀ s ∈ subs, WFsub s)
    (hne : subs ≠ []) : stripWs (write_srt subs) = writeBody 1 subs := by
  cases subs with
  | nil => exact absurd rfl hne
  | cons sub rest =>
  show stripWs (writeSrtGo 1 (sub :: rest)) = _
  rw [writeSrtGo_body (sub :: rest) 1 (by simp)]
  obtain ⟨d, t, hq, hd⟩ := writeBody_head sub rest 1
  obtain ⟨c, hc, hcf⟩ := writeBody_last rest sub 1 (h sub (by simp))
    (fun s hs => h s (by simp [hs]))
  unfold stripWs
  have hL : lstripWs (writeBody 1 (sub :: rest) ++ ['\n', '\n']) =
      writeBody 1 (sub :: rest) ++ ['\n', '\n'] := by
    rw [hq, List.cons_append]
    exact lstrip_cons_false d _ (digit_not_ws d hd)
  rw [hL, rstrip_append_ws _ _ (by decide)]
  apply rstrip_of_last_not_ws
  intro c2 hc2
  rw [hc] at hc2
  injection hc2 with hc2
  subst hc2
  exact hcf

theorem dropBom_write_srt (subs : List Subtitle) (hne : subs ≠ []) :
    dropBom (write_srt subs) = write_srt subs := by
  cases subs with
  | nil => exact absurd rfl hne
  | cons sub rest =>
  show dropBom (writeSrtGo 1 (sub :: rest)) = writeSrtGo 1 (sub :: rest)
  rw [writeSrtGo_body (sub :: rest) 1 (by simp)]
  obtain ⟨d, t, hq, hd⟩ := writeBody_head sub rest 1
  rw [hq, List.cons_append]
  unfold dropBom
  rw [List.dropWhile_cons,
    decide_eq_false (digit_ne_char d hd '﻿' (by decide))]
  simp

/-- C2: for every caption sequence obtained by SRT parsing, writing it with
`write_srt` and parsing the result with `parse_srt` again yields the same
ordered sequence of (start, end, text) triples, and the indices of the
re-parsed records are exactly 1..N in order. -/
theorem claim_C2 (content : List Char) :
    (parse_srt (write_srt (parse_srt content))).map
        (fun r => (r.start, r.«end», r.text)) =
      (parse_srt content).map (fun r => (r.start, r.«end», r.text)) ∧
    (parse_srt (write_srt (parse_srt content))).map Subtitle.index =
      (List.range' 1 (parse_srt content).length).map Int.ofNat := by
  have hWF0 : ∀ s ∈ parse_srt content, WFsub s :=
    fun s hs => parse_srt_WF content s hs
  rcases horig : parse_srt content with _ | ⟨sub1, restO⟩
  · exact ⟨rfl, rfl⟩
  · rw [horig] at hWF0
    have hne : (sub1 :: restO : List Subtitle) ≠ [] := by simp
    unfold parse_srt
    rw [dropBom_write_srt _ hne, strip_write_srt _ hWF0 hne,
      splitBlank_writeBody _ 1 hWF0 hne]
    exact ⟨reparse_triples _ 1 hWF0, reparse_indices _ 1 hWF0⟩
